import Mathlib

/-!
Spatial handler: containment tests, envelopes, decomposition, the converter and rendering.

A shallow embedding of `backend/wbpublic/grt/spatial_handler.cpp`.

Conventions of the embedding:

* A C++ `double` is an element of a linearly ordered field `K`, with exact arithmetic.  The
  definitions are generic in `K`; they run on `ℚ` and are reasoned about on `ℚ` or `ℝ`.
* The C library function `sqrt` is a parameter `sqrt : K → K` of the functions that call it.
  `pow (x, 2)` is `x ^ 2`.
* A `std::vector<base::Point>` or `std::deque` is a `List`.
* A method that mutates `*this` or a reference argument returns the new value.
* A `(int)` cast of a double is truncation towards zero; overflow of the cast is not modelled.
* A `float` is treated as a `double` is.
* A pointer is an `Option`, none for null; a call through a null pointer ends the method
  with an error or with none.
* An interrupt flag keeps its value during a call: the loops test it at every iteration, as
  the source does, but a flag set by another thread in the middle of a loop is not modelled,
  nor is the mutex.
-/

namespace spatial

/-! ## Data model -/

/-- The type `base::Point`: a pair of doubles. -/
structure Point (K : Type) where
  x : K
  y : K
deriving DecidableEq, Repr

/-- The type `spatial::Envelope`. -/
structure Envelope (K : Type) where
  top_left : Point K
  bottom_right : Point K
  converted : Bool
deriving DecidableEq, Repr

/-- The enumeration `spatial::ShapeType`. -/
inductive ShapeType where
  | ShapeUnknown
  | ShapePoint
  | ShapeLineString
  | ShapeLinearRing
  | ShapePolygon
deriving DecidableEq, Repr

/-- The type `spatial::ShapeContainer`. -/
structure ShapeContainer (K : Type) where
  type : ShapeType
  points : List (Point K)
  bounding_box : Envelope K
deriving DecidableEq, Repr

section Containment

variable {K : Type} [LinearOrderedField K]

/-- The default constructor `Envelope::Envelope()`: the sentinel box. -/
def Envelope.new : Envelope K :=
  { top_left := ⟨180, -90⟩, bottom_right := ⟨-180, 90⟩, converted := false }

/-- The method `Envelope::is_init` (lines 84-87). -/
def Envelope.is_init (env : Envelope K) : Bool :=
  decide (env.top_left.x ≠ 180) && decide (env.top_left.y ≠ -90) &&
    decide (env.bottom_right.x ≠ -180) && decide (env.bottom_right.y ≠ 90)

/-- The function `distance_to_segment` (lines 117-142). -/
def distance_to_segment (sqrt : K → K) (start stop p : Point K) : K :=
  let dx := stop.x - start.x
  let dy := stop.y - start.y
  if dx = 0 ∧ dy = 0 then
    sqrt ((p.x - start.x) ^ 2 + (p.y - start.y) ^ 2)
  else
    let dist_to_line := ((p.x - start.x) * dx + (p.y - start.y) * dy) / (dx ^ 2 + dy ^ 2)
    if dist_to_line > 1 then
      let dx := p.x - stop.x
      let dy := p.y - stop.y
      sqrt (dx ^ 2 + dy ^ 2)
    else if dist_to_line < 0 then
      let dx := p.x - start.x
      let dy := p.y - start.y
      sqrt (dx ^ 2 + dy ^ 2)
    else
      let dx' := p.x - (start.x + dist_to_line * dx)
      let dy' := p.y - (start.y + dist_to_line * dy)
      sqrt (dx' ^ 2 + dy' ^ 2)

/-- The `while (++it != point_list.end())` loop of `within_line`: `it_tmp` points at `prev`,
and `rest` is what `it` has still to visit. -/
def within_line_loop (sqrt : K → K) (p : Point K) : Point K → List (Point K) → Bool
  | _, [] => false
  | prev, q :: rest =>
    if distance_to_segment sqrt prev q p ≤ 1 then true
    else within_line_loop sqrt p q rest

/-- The method `ShapeContainer::within_line` (lines 144-166).  `distance_to_segment` throws
nothing, so the `catch` branch is dead. -/
def within_line (sqrt : K → K) (point_list : List (Point K)) (p : Point K) : Bool :=
  match point_list with
  | [] => false
  | q0 :: rest => within_line_loop sqrt p q0 rest

/-- The method `ShapeContainer::within_linearring` (lines 106-114): the test runs on a copy
`tmp` of the points, closed by a copy of its first point. -/
def within_linearring (sqrt : K → K) (sc : ShapeContainer K) (p : Point K) : Bool :=
  match sc.points with
  | [] => false
  | q0 :: rest =>
    let tmp := q0 :: rest
    let tmp := tmp ++ [q0]
    within_line sqrt tmp p

/-- The condition of the `if` in the loop of `within_polygon` (line 181), for the vertices
`points[i]` and `points[j]`.  The `&&` of booleans evaluates its right side only when the
left side holds. -/
def polygon_edge_crossed (pi pj p : Point K) : Bool :=
  (decide (pi.y > p.y) != decide (pj.y > p.y)) &&
    decide (p.x < (pj.x - pi.x) * (p.y - pi.y) / (pj.y - pi.y) + pi.x)

/-- One iteration of the `for` loop of `within_polygon`: the state is `(c, j)`, the body
toggles `c` and the increment sets `j = i`. -/
def within_polygon_step (points : List (Point K)) (p : Point K) (st : Bool × Nat) (i : Nat) :
    Bool × Nat :=
  let c := st.1
  let j := st.2
  let c := if polygon_edge_crossed (points.getD i ⟨0, 0⟩) (points.getD j ⟨0, 0⟩) p then !c else c
  (c, i)

/-- The method `ShapeContainer::within_polygon` (lines 168-185). -/
def within_polygon (sc : ShapeContainer K) (p : Point K) : Bool :=
  if sc.points.isEmpty then false
  else if !(decide (sc.bounding_box.top_left.x ≤ p.x) && decide (sc.bounding_box.top_left.y ≤ p.y)
      && decide (sc.bounding_box.bottom_right.x ≥ p.x)
      && decide (sc.bounding_box.bottom_right.y ≥ p.y)) then false
  else
    let nvert := sc.points.length
    ((List.range nvert).foldl (within_polygon_step sc.points p) (false, nvert - 1)).1

/-- The condition of line 181 with its division watched: the quotient is evaluated only
when the left side of `&&` holds, and the result is none when the divisor
`points[j].y - points[i].y` is zero at that moment. -/
def polygon_edge_crossed_checked (pi pj p : Point K) : Option Bool :=
  if decide (pi.y > p.y) != decide (pj.y > p.y) then
    if pj.y - pi.y = 0 then none
    else some (decide (p.x < (pj.x - pi.x) * (p.y - pi.y) / (pj.y - pi.y) + pi.x))
  else some false

/-- One iteration of the loop of `within_polygon` with its accesses watched: none when
`points[i]` or `points[j]` is out of bounds or the division has a zero divisor. -/
def within_polygon_step_checked (points : List (Point K)) (p : Point K)
    (st : Option (Bool × Nat)) (i : Nat) : Option (Bool × Nat) :=
  match st with
  | none => none
  | some (c, j) =>
    match points[i]?, points[j]? with
    | some pi, some pj =>
      match polygon_edge_crossed_checked pi pj p with
      | some crossed => some (if crossed then !c else c, i)
      | none => none
    | _, _ => none

/-- The method `ShapeContainer::within_polygon` (lines 168-185) with its accesses and its
division watched: none when an index is out of bounds or a divisor is zero. -/
def within_polygon_checked (sc : ShapeContainer K) (p : Point K) : Option Bool :=
  if sc.points.isEmpty then some false
  else if !(decide (sc.bounding_box.top_left.x ≤ p.x) && decide (sc.bounding_box.top_left.y ≤ p.y)
      && decide (sc.bounding_box.bottom_right.x ≥ p.x)
      && decide (sc.bounding_box.bottom_right.y ≥ p.y)) then some false
  else
    let nvert := sc.points.length
    match (List.range nvert).foldl (within_polygon_step_checked sc.points p)
        (some (false, nvert - 1)) with
    | some st => some st.1
    | none => none

/-- The method `ShapeContainer::within_point` (lines 187-198). -/
def within_point (sqrt : K → K) (sc : ShapeContainer K) (p : Point K) : Bool :=
  match sc.points with
  | [] => false
  | p0 :: _ =>
    let rval := sqrt ((p.x - p0.x) ^ 2 + (p.y - p0.y) ^ 2)
    if rval < 4 then true else false

/-- The method `ShapeContainer::within` (lines 89-104). -/
def within (sqrt : K → K) (sc : ShapeContainer K) (p : Point K) : Bool :=
  match sc.type with
  | .ShapePoint => within_point sqrt sc p
  | .ShapeLineString => within_line sqrt sc.points p
  | .ShapeLinearRing => within_linearring sqrt sc p
  | .ShapePolygon => within_polygon sc p
  | _ => false

end Containment


/-! ## Envelopes, features and layers -/

section Layers

variable {K : Type} [LinearOrderedField K] {G : Type}

/-- Modelled from the spec: the macro `MIN` that `extend_env` uses is not defined in this
file; the spec gives the union as `min` on `top_left.x` and `bottom_right.y`.  It is the
usual conditional macro. -/
def MIN (a b : K) : K := if a < b then a else b

/-- Modelled from the spec: the macro `MAX` that `extend_env` uses is not defined in this
file; the spec gives the union as `max` on `top_left.y` and `bottom_right.x`.  It is the
usual conditional macro. -/
def MAX (a b : K) : K := if a > b then a else b

/-- The function `extend_env` (lines 829-835); the result is the value of `env` after the
call. -/
def extend_env (env env2 : Envelope K) : Envelope K :=
  let env := { env with top_left := ⟨MIN env.top_left.x env2.top_left.x, env.top_left.y⟩ }
  let env := { env with top_left := ⟨env.top_left.x, MAX env.top_left.y env2.top_left.y⟩ }
  let env := { env with
    bottom_right := ⟨MAX env.bottom_right.x env2.bottom_right.x, env.bottom_right.y⟩ }
  let env := { env with
    bottom_right := ⟨env.bottom_right.x, MIN env.bottom_right.y env2.bottom_right.y⟩ }
  env

/-- The type `OGREnvelope` of the geometry engine. -/
structure OGREnvelope (K : Type) where
  MinX : K
  MaxX : K
  MinY : K
  MaxY : K

/-- The part of the external geometry engine that the importer calls: the two parsers, each
giving an error code (0 is `OGRERR_NONE`) and the pointer it leaves in its output argument
(none for null), and the native bounding box of a geometry.  `G` is the type of an `OGRGeometry`. -/
structure GeometryEngine (K : Type) (G : Type) where
  createFromWkb : String → Nat × Option G
  createFromWkt : String → Nat × Option G
  getEnvelope : G → OGREnvelope K

/-- The class `spatial::Importer`: the parsed geometry (none for a null pointer) and the
interrupt flag. -/
structure Importer (G : Type) where
  _geometry : Option G
  _interrupt : Bool

/-- The constructor `Importer::Importer()`. -/
def Importer.new : Importer G := { _geometry := none, _interrupt := false }

/-- The method `Importer::import_from_mysql` (lines 441-452): the first four bytes of the
payload are skipped. -/
def Importer.import_from_mysql (eng : GeometryEngine K G) (imp : Importer G) (data : String) :
    Importer G × Int :=
  let r := eng.createFromWkb (data.drop 4)
  let imp := { imp with _geometry := r.2 }
  (imp, if r.1 = 0 then 0 else 1)

/-- The method `Importer::import_from_wkt` (lines 454-466). -/
def Importer.import_from_wkt (eng : GeometryEngine K G) (imp : Importer G) (data : String) :
    Importer G × Int :=
  let r := eng.createFromWkt data
  let imp := { imp with _geometry := r.2 }
  (imp, if r.1 = 0 then 0 else 1)

/-- The method `Importer::get_envelope` (lines 417-428); the result is the value of `env`
after the call. -/
def Importer.get_envelope (eng : GeometryEngine K G) (imp : Importer G) (env : Envelope K) :
    Envelope K :=
  match imp._geometry with
  | some g =>
    let ogr_env := eng.getEnvelope g
    { env with top_left := ⟨ogr_env.MinX, ogr_env.MaxY⟩,
               bottom_right := ⟨ogr_env.MaxX, ogr_env.MinY⟩ }
  | none => env

/-- The class `spatial::Feature`, without the back pointer to its layer. -/
structure Feature (K : Type) (G : Type) where
  _row_id : Int
  _geometry : Importer G
  _shapes : List (ShapeContainer K)

/-- The constructor `Feature::Feature` (lines 738-745). -/
def Feature.new (eng : GeometryEngine K G) (row_id : Int) (data : String) (wkt : Bool) :
    Feature K G :=
  let geometry : Importer G := Importer.new
  let geometry :=
    if wkt then (geometry.import_from_wkt eng data).1
    else (geometry.import_from_mysql eng data).1
  { _row_id := row_id, _geometry := geometry, _shapes := [] }

/-- The method `Feature::get_envelope` (lines 751-754). -/
def Feature.get_envelope (eng : GeometryEngine K G) (f : Feature K G) (env : Envelope K) :
    Envelope K :=
  f._geometry.get_envelope eng env

/-- The class `spatial::Layer`, without its colour.  The constructor leaves
`_render_progress` uninitialised. -/
structure Layer (K : Type) (G : Type) where
  _layer_id : Int
  _show : Bool
  _interrupt : Bool
  _fill_polygons : Bool
  _features : List (Feature K G)
  _spatial_envelope : Envelope K
  _render_progress : K

/-- The constructor `Layer::Layer` (lines 838-846); `progress0` is whatever the
uninitialised `_render_progress` holds. -/
def Layer.new (layer_id : Int) (progress0 : K) : Layer K G :=
  let env : Envelope K := Envelope.new
  let env := { env with top_left := ⟨180, -90⟩, bottom_right := ⟨-180, 90⟩ }
  { _layer_id := layer_id, _show := false, _interrupt := false, _fill_polygons := false,
    _features := [], _spatial_envelope := env, _render_progress := progress0 }

/-- The method `Layer::add_feature` (lines 888-895). -/
def Layer.add_feature (eng : GeometryEngine K G) (layer : Layer K G) (row_id : Int)
    (geom_data : String) (wkt : Bool) : Layer K G :=
  let env : Envelope K := Envelope.new
  let feature : Feature K G := Feature.new eng row_id geom_data wkt
  let env := feature.get_envelope eng env
  let layer := { layer with _spatial_envelope := extend_env layer._spatial_envelope env }
  { layer with _features := layer._features ++ [feature] }

/-- The method `Layer::get_envelope` (lines 916-919). -/
def Layer.get_envelope (layer : Layer K G) : Envelope K := layer._spatial_envelope

end Layers

/-! ## Decomposition of a geometry into simple shapes -/

section Decomposition

variable {K : Type} [LinearOrderedField K]

/-- Modelled from the spec: the classes of the geometry engine are not in this file.  A
geometry is a point, a line string or a linear ring with its vertices (`getX (i)`,
`getY (i)` read vertex `i`), a polygon with its exterior ring and its interior rings, a
multi-geometry or collection with its members, or any other geometry.  The constructor
stands for the flattened `getGeometryType ()`: as in the spec, a ring reports
`wkbLinearRing`.  A polygon without exterior ring is outside the model. -/
inductive OGRGeometry (K : Type) where
  | wkbPoint (x y : K)
  | wkbLineString (line : List (Point K))
  | wkbLinearRing (ring : List (Point K))
  | wkbPolygon (exterior : List (Point K)) (interior : List (List (Point K)))
  | wkbGeometryCollection (members : List (OGRGeometry K))
  | wkbUnknown

/-- The loop `for (int i = nPoints - 1; i >= 0 && !_interrupt; i--)` that pushes the point
`(getX (i), getY (i))` onto `points`; the counter is `i + 1`. -/
def push_points_backwards (_interrupt : Bool) (line : List (Point K)) :
    Nat → List (Point K) → List (Point K)
  | 0, points => points
  | i + 1, points =>
    if _interrupt then points
    else push_points_backwards _interrupt line i
      (points ++ [⟨(line.getD i ⟨0, 0⟩).x, (line.getD i ⟨0, 0⟩).y⟩])

/-- The branch `flat_type == wkbLineString` of `extract_points` (lines 339-358). -/
def Importer.extract_line_string (eng : GeometryEngine K (OGRGeometry K))
    (imp : Importer (OGRGeometry K)) (line : List (Point K))
    (shapes_container : List (ShapeContainer K)) : List (ShapeContainer K) :=
  let env := eng.getEnvelope (.wkbLineString line)
  let bounding_box : Envelope K :=
    { (Envelope.new : Envelope K) with
      top_left := ⟨env.MinX, env.MaxY⟩, bottom_right := ⟨env.MaxX, env.MinY⟩ }
  let nPoints := line.length
  let container : ShapeContainer K :=
    { type := .ShapeLineString,
      points := push_points_backwards imp._interrupt line nPoints [],
      bounding_box := bounding_box }
  shapes_container ++ [container]

/-- The branch `flat_type == wkbLinearRing` of `extract_points` (lines 359-377). -/
def Importer.extract_linear_ring (eng : GeometryEngine K (OGRGeometry K))
    (imp : Importer (OGRGeometry K)) (ring : List (Point K))
    (shapes_container : List (ShapeContainer K)) : List (ShapeContainer K) :=
  let env := eng.getEnvelope (.wkbLinearRing ring)
  let bounding_box : Envelope K :=
    { (Envelope.new : Envelope K) with
      top_left := ⟨env.MinX, env.MaxY⟩, bottom_right := ⟨env.MaxX, env.MinY⟩ }
  let nPoints := ring.length
  let container : ShapeContainer K :=
    { type := .ShapeLinearRing,
      points := push_points_backwards imp._interrupt ring nPoints [],
      bounding_box := bounding_box }
  shapes_container ++ [container]

/-- The loop over the interior rings of a polygon (lines 398-399): each call of
`extract_points` on a ring runs the `wkbLinearRing` branch. -/
def Importer.extract_interior_rings (eng : GeometryEngine K (OGRGeometry K))
    (imp : Importer (OGRGeometry K)) :
    List (List (Point K)) → List (ShapeContainer K) → List (ShapeContainer K)
  | [], shapes_container => shapes_container
  | ring :: rest, shapes_container =>
    if imp._interrupt then shapes_container
    else imp.extract_interior_rings eng rest (imp.extract_linear_ring eng ring shapes_container)

mutual
/-- The method `Importer::extract_points` (lines 325-409); the result is the content of
`shapes_container` after the call. -/
def Importer.extract_points (eng : GeometryEngine K (OGRGeometry K))
    (imp : Importer (OGRGeometry K)) :
    OGRGeometry K → List (ShapeContainer K) → List (ShapeContainer K)
  | .wkbPoint x y, shapes_container =>
    let container : ShapeContainer K :=
      { type := .ShapePoint, points := [⟨x, y⟩],
        bounding_box :=
          { (Envelope.new : Envelope K) with top_left := ⟨x, y⟩, bottom_right := ⟨x, y⟩ } }
    shapes_container ++ [container]
  | .wkbLineString line, shapes_container =>
    imp.extract_line_string eng line shapes_container
  | .wkbLinearRing ring, shapes_container =>
    imp.extract_linear_ring eng ring shapes_container
  | .wkbPolygon exterior interior, shapes_container =>
    let nPoints := exterior.length
    let env := eng.getEnvelope (.wkbLinearRing exterior)
    let bounding_box : Envelope K :=
      { (Envelope.new : Envelope K) with
        top_left := ⟨env.MinX, env.MaxY⟩, bottom_right := ⟨env.MaxX, env.MinY⟩ }
    let container : ShapeContainer K :=
      { type := .ShapePolygon,
        points := push_points_backwards false exterior nPoints [],
        bounding_box := bounding_box }
    let shapes_container := shapes_container ++ [container]
    imp.extract_interior_rings eng interior shapes_container
  | .wkbGeometryCollection members, shapes_container =>
    Importer.extract_members eng imp members shapes_container
  | .wkbUnknown, shapes_container => shapes_container
/-- The loop over the members of a multi-geometry or collection (lines 406-407). -/
def Importer.extract_members (eng : GeometryEngine K (OGRGeometry K))
    (imp : Importer (OGRGeometry K)) :
    List (OGRGeometry K) → List (ShapeContainer K) → List (ShapeContainer K)
  | [], shapes_container => shapes_container
  | g :: rest, shapes_container =>
    if imp._interrupt then shapes_container
    else Importer.extract_members eng imp rest
      (Importer.extract_points eng imp g shapes_container)
end

/-- The method `Importer::get_points` (lines 411-415); the result is the content of
`shapes_container` after the call. -/
def Importer.get_points (eng : GeometryEngine K (OGRGeometry K))
    (imp : Importer (OGRGeometry K)) (shapes_container : List (ShapeContainer K)) :
    List (ShapeContainer K) :=
  match imp._geometry with
  | some g => imp.extract_points eng g shapes_container
  | none => shapes_container

/-- The method `Importer::interrupt` (lines 545-548). -/
def Importer.interrupt {G : Type} (imp : Importer G) : Importer G :=
  { imp with _interrupt := true }

end Decomposition

/-! ## The converter: pixel to projected coordinates and back -/

section Converter

variable {K : Type} [LinearOrderedField K] [FloorRing K]

/-- The type `spatial::ProjectionView`. -/
structure ProjectionView (K : Type) where
  MaxLat : K
  MaxLon : K
  MinLat : K
  MinLon : K
  height : Int
  width : Int

/-- The operator `==` on `ProjectionView` (lines 40-48). -/
def ProjectionView.eq (v1 v2 : ProjectionView K) : Bool :=
  decide (v1.MaxLat = v2.MaxLat) && decide (v1.MaxLon = v2.MaxLon) &&
    decide (v1.MinLat = v2.MinLat) && decide (v1.MinLon = v2.MinLon) &&
    decide (v1.height = v2.height) && decide (v1.width = v2.width)

/-- The operator `!=` on `ProjectionView` (lines 49-52). -/
def ProjectionView.ne (v1 v2 : ProjectionView K) : Bool := !(ProjectionView.eq v1 v2)

/-- An `OGRCoordinateTransformation`, seen through the call `Transform (1, &x, &y)`: from
the two coordinates it gives whether the call succeeded and the values it leaves in `x` and
in `y`. -/
abbrev CoordinateTransformation (K : Type) : Type := K → K → Bool × K × K

/-- The state of a `spatial::Converter`: the view, the two CRS pointers (an address, none
for null), the two transformations (none for null), the two coefficient arrays
`_adf_projection` and `_inv_projection`, and the interrupt flag.  The mutex is not
modelled. -/
structure Converter (K : Type) where
  _view : ProjectionView K
  _source_srs : Option Nat
  _target_srs : Option Nat
  _geo_to_proj : Option (CoordinateTransformation K)
  _proj_to_geo : Option (CoordinateTransformation K)
  _adf_projection : Fin 6 → K
  _inv_projection : Fin 6 → K
  _interrupt : Bool

/-- The two library functions that `change_projection` calls: the factory of a
transformation between two CRS pointers (none when it returns null), and
`GDALInvGeoTransform`, which from the forward coefficients and the old content of its output
array gives the new content of that array. -/
structure ProjectionEngine (K : Type) where
  OGRCreateCoordinateTransformation :
    Option Nat → Option Nat → Option (CoordinateTransformation K)
  GDALInvGeoTransform : (Fin 6 → K) → (Fin 6 → K) → Fin 6 → K

/-- The method `Converter::change_projection (view, src_srs, dst_srs)` (lines 581-646).
The result is the state after the call, or the error thrown; calling `Transform` through a
null `_geo_to_proj` is reported as an error too.  Logging is left out. -/
def Converter.change_projection (eng : ProjectionEngine K) (cv : Converter K)
    (view : ProjectionView K) (src_srs dst_srs : Option Nat) : Except String (Converter K) :=
  let recalculate : Nat := 0
  let (cv, recalculate) :=
    if ProjectionView.ne view cv._view then ({ cv with _view := view }, 1)
    else (cv, recalculate)
  let (cv, recalculate) :=
    if src_srs ≠ none ∧ src_srs ≠ cv._source_srs then ({ cv with _source_srs := src_srs }, 2)
    else (cv, recalculate)
  let (cv, recalculate) :=
    if dst_srs ≠ none ∧ dst_srs ≠ cv._target_srs then ({ cv with _target_srs := dst_srs }, 2)
    else (cv, recalculate)
  if recalculate = 0 then .ok cv
  else
    let rebuilt : Except String (Converter K) :=
      if recalculate = 2 then
        let cv := { cv with
          _geo_to_proj := eng.OGRCreateCoordinateTransformation cv._source_srs cv._target_srs,
          _proj_to_geo := eng.OGRCreateCoordinateTransformation cv._target_srs cv._source_srs }
        if cv._geo_to_proj.isNone ∨ cv._proj_to_geo.isNone then
          .error "Unable to perform specified transformation.\n"
        else .ok cv
      else .ok cv
    match rebuilt with
    | .error e => .error e
    | .ok cv =>
      match cv._geo_to_proj with
      | none => .error "null pointer"
      | some geo_to_proj =>
        let r1 := geo_to_proj cv._view.MinLat cv._view.MaxLon
        let minLat := r1.2.1
        let maxLon := r1.2.2
        let r2 := geo_to_proj cv._view.MaxLat cv._view.MinLon
        let maxLat := r2.2.1
        let minLon := r2.2.2
        let adf : Fin 6 → K :=
          ![minLat, (maxLat - minLat) / (cv._view.width : K), 0, maxLon, 0,
            -(maxLon - minLon) / (cv._view.height : K)]
        .ok { cv with _adf_projection := adf,
                      _inv_projection := eng.GDALInvGeoTransform adf cv._inv_projection }

/-- The cast `(int)` of a double: truncation towards zero. -/
def double_to_int (v : K) : Int := if 0 ≤ v then ⌊v⌋ else ⌈v⌉

/-- The method `Converter::to_projected` (lines 648-653); the result is the pair
`(lat, lon)` of the two output arguments. -/
def Converter.to_projected (cv : Converter K) (x y : Int) : K × K :=
  let lat := cv._adf_projection 3 + (x : K) * cv._adf_projection 4 + (y : K) * cv._adf_projection 5
  let lon := cv._adf_projection 0 + (x : K) * cv._adf_projection 1 + (y : K) * cv._adf_projection 2
  (lat, lon)

/-- The method `Converter::from_projected` (lines 655-660); the result is the pair `(x, y)`
of the two output arguments. -/
def Converter.from_projected (cv : Converter K) (lat lon : K) : Int × Int :=
  let x := double_to_int (cv._inv_projection 0 + cv._inv_projection 1 * lat)
  let y := double_to_int (cv._inv_projection 3 + cv._inv_projection 5 * lon)
  (x, y)

/-- The first inner loop of `transform_points` (lines 695-699): `done` holds the points
before index `i`, already transformed in place, and the second list the points from index
`i` on; a failed index is pushed onto `for_removal`. -/
def transform_points_convert (geo_to_proj : CoordinateTransformation K) (_interrupt : Bool) :
    List (Point K) → Nat → List (Point K) → List Nat → List (Point K) × List Nat
  | done, _, [], for_removal => (done, for_removal)
  | done, i, q :: rest, for_removal =>
    if _interrupt then (done ++ q :: rest, for_removal)
    else
      let r := geo_to_proj q.x q.y
      let for_removal := if !r.1 then for_removal ++ [i] else for_removal
      transform_points_convert geo_to_proj _interrupt (done ++ [⟨r.2.1, r.2.2⟩]) (i + 1) rest
        for_removal

/-- The loop of `transform_points` that erases the failed points (lines 717-719); the first
list is `for_removal` from its last entry to its first. -/
def transform_points_erase (_interrupt : Bool) : List Nat → List (Point K) → List (Point K)
  | [], points => points
  | rit :: rest, points =>
    if _interrupt then points
    else transform_points_erase _interrupt rest (points.eraseIdx rit)

/-- The last inner loop of `transform_points` (lines 721-727): `done` holds the points
already replaced by their pixel. -/
def transform_points_to_pixel (cv : Converter K) :
    List (Point K) → List (Point K) → List (Point K)
  | done, [] => done
  | done, q :: rest =>
    if cv._interrupt then done ++ q :: rest
    else
      let xy := cv.from_projected q.x q.y
      transform_points_to_pixel cv (done ++ [⟨(xy.1 : K), (xy.2 : K)⟩]) rest

/-- The bounding-box step of `transform_points` (lines 701-712).  `Transform` writes into
the corner it is given; the second call is made only when the first one succeeded. -/
def transform_points_box (cv : Converter K) (geo_to_proj : CoordinateTransformation K)
    (bounding_box : Envelope K) : Envelope K :=
  let r1 := geo_to_proj bounding_box.bottom_right.x bounding_box.bottom_right.y
  let bounding_box := { bounding_box with bottom_right := ⟨r1.2.1, r1.2.2⟩ }
  if r1.1 then
    let r2 := geo_to_proj bounding_box.top_left.x bounding_box.top_left.y
    let bounding_box := { bounding_box with top_left := ⟨r2.2.1, r2.2.2⟩ }
    if r2.1 then
      let xy := cv.from_projected bounding_box.bottom_right.x bounding_box.bottom_right.y
      let bounding_box := { bounding_box with bottom_right := ⟨(xy.1 : K), (xy.2 : K)⟩ }
      let xy := cv.from_projected bounding_box.top_left.x bounding_box.top_left.y
      let bounding_box := { bounding_box with top_left := ⟨(xy.1 : K), (xy.2 : K)⟩ }
      { bounding_box with converted := true }
    else bounding_box
  else bounding_box

/-- The body of the outer loop of `transform_points` (lines 694-727) for one container. -/
def transform_points_container (cv : Converter K) (geo_to_proj : CoordinateTransformation K)
    (sc : ShapeContainer K) : ShapeContainer K :=
  let converted := transform_points_convert geo_to_proj cv._interrupt [] 0 sc.points []
  let points := converted.1
  let for_removal := converted.2
  let bounding_box := transform_points_box cv geo_to_proj sc.bounding_box
  let points := transform_points_erase cv._interrupt for_removal.reverse points
  let points := transform_points_to_pixel cv [] points
  { sc with points := points, bounding_box := bounding_box }

/-- The method `Converter::transform_points` (lines 688-729); the result is the content of
`shapes_container` after the call, or none when `Transform` is called through a null
`_geo_to_proj`. -/
def Converter.transform_points (cv : Converter K) :
    List (ShapeContainer K) → Option (List (ShapeContainer K))
  | [] => some []
  | sc :: rest =>
    if cv._interrupt then some (sc :: rest)
    else
      match cv._geo_to_proj with
      | none => none
      | some geo_to_proj =>
        match cv.transform_points rest with
        | none => none
        | some rest => some (transform_points_container cv geo_to_proj sc :: rest)

/-- The method `Converter::interrupt` (lines 731-734). -/
def Converter.interrupt (cv : Converter K) : Converter K := { cv with _interrupt := true }

end Converter

/-! ## Rendering and hit testing -/

section Rendering

variable {K : Type} [LinearOrderedField K] [FloorRing K]

/-- The method `Feature::render` (lines 756-762); none when `transform_points` runs into a
null transformation. -/
def Feature.render (eng : GeometryEngine K (OGRGeometry K)) (f : Feature K (OGRGeometry K))
    (converter : Converter K) : Option (Feature K (OGRGeometry K)) :=
  let tmp_shapes : List (ShapeContainer K) := []
  let tmp_shapes := f._geometry.get_points eng tmp_shapes
  match converter.transform_points tmp_shapes with
  | none => none
  | some tmp_shapes => some { f with _shapes := tmp_shapes }

/-- The loop of `Feature::within` (lines 767-771); `owner_interrupt` is `_owner->_interrupt`. -/
def Feature.within_loop (owner_interrupt : Bool) (sqrt : K → K) (p : Point K) :
    List (ShapeContainer K) → Bool
  | [] => false
  | sc :: rest =>
    if owner_interrupt then false
    else if within sqrt sc p then true
    else Feature.within_loop owner_interrupt sqrt p rest

/-- The method `Feature::within` (lines 765-773); `owner_interrupt` is the interrupt flag of
the owning layer. -/
def Feature.within {G : Type} (owner_interrupt : Bool) (sqrt : K → K) (f : Feature K G)
    (p : Point K) : Bool :=
  Feature.within_loop owner_interrupt sqrt p f._shapes

/-- The method `Feature::interrupt` (lines 775-778). -/
def Feature.interrupt {G : Type} (f : Feature K G) : Feature K G :=
  { f with _geometry := f._geometry.interrupt }

/-- The method `Layer::interrupt` (lines 864-869). -/
def Layer.interrupt {G : Type} (layer : Layer K G) : Layer K G :=
  { layer with _interrupt := true, _features := layer._features.map Feature.interrupt }

/-- The method `Layer::query_render_progress` (lines 911-914). -/
def Layer.query_render_progress {G : Type} (layer : Layer K G) : K := layer._render_progress

/-- The loop of `Layer::render` (lines 927-931): the features still to visit and the
progress so far give the features after their render and the final progress. -/
def Layer.render_loop (eng : GeometryEngine K (OGRGeometry K)) (converter : Converter K)
    (_interrupt : Bool) (step : K) :
    List (Feature K (OGRGeometry K)) → K → Option (List (Feature K (OGRGeometry K)) × K)
  | [], progress => some ([], progress)
  | f :: rest, progress =>
    if _interrupt then some (f :: rest, progress)
    else
      match f.render eng converter with
      | none => none
      | some f =>
        match Layer.render_loop eng converter _interrupt step rest (progress + step) with
        | none => none
        | some (rest, progress) => some (f :: rest, progress)

/-- The method `Layer::render` (lines 922-932).  With no feature the quotient `step` is
`1.0f / 0`, infinite in floating point; it is computed and never added. -/
def Layer.render (eng : GeometryEngine K (OGRGeometry K)) (layer : Layer K (OGRGeometry K))
    (converter : Converter K) : Option (Layer K (OGRGeometry K)) :=
  let layer := { layer with _render_progress := 0 }
  let step : K := 1 / (layer._features.length : K)
  match Layer.render_loop eng converter layer._interrupt step layer._features
      layer._render_progress with
  | none => none
  | some (features, progress) =>
    some { layer with _features := features, _render_progress := progress }

/-- The loop of `Layer::feature_within` (lines 936-940). -/
def Layer.feature_within_loop {G : Type} (_interrupt : Bool) (sqrt : K → K) (p : Point K) :
    List (Feature K G) → Option (Feature K G)
  | [] => none
  | f :: rest =>
    if _interrupt then none
    else if f.within _interrupt sqrt p then some f
    else Layer.feature_within_loop _interrupt sqrt p rest

/-- The method `Layer::feature_within` (lines 934-942); none for `NULL`. -/
def Layer.feature_within {G : Type} (sqrt : K → K) (layer : Layer K G) (p : Point K) :
    Option (Feature K G) :=
  Layer.feature_within_loop layer._interrupt sqrt p layer._features

end Rendering


/-! ## Concrete inputs -/

section Examples

/-- The square ring `[(0,0),(10,0),(10,10),(0,10)]` as a Polygon container with the box
`(0,0)-(10,10)`. -/
def square_polygon : ShapeContainer ℚ :=
  { type := .ShapePolygon, points := [⟨0, 0⟩, ⟨10, 0⟩, ⟨10, 10⟩, ⟨0, 10⟩],
    bounding_box := { top_left := ⟨0, 0⟩, bottom_right := ⟨10, 10⟩, converted := false } }

/-- A LineString container with the two segments `(0,0)-(10,0)` and `(10,0)-(10,10)`. -/
def elbow_line : ShapeContainer ℚ :=
  { type := .ShapeLineString, points := [⟨0, 0⟩, ⟨10, 0⟩, ⟨10, 10⟩],
    bounding_box := { top_left := ⟨0, 10⟩, bottom_right := ⟨10, 0⟩, converted := false } }

/-- A LinearRing container with the three vertices `(0,0)`, `(10,0)`, `(10,10)`. -/
def triangle_ring : ShapeContainer ℚ :=
  { type := .ShapeLinearRing, points := [⟨0, 0⟩, ⟨10, 0⟩, ⟨10, 10⟩],
    bounding_box := { top_left := ⟨0, 10⟩, bottom_right := ⟨10, 0⟩, converted := false } }

/-- A Point container without points. -/
def empty_point : ShapeContainer ℚ :=
  { type := .ShapePoint, points := [],
    bounding_box := { top_left := ⟨0, 0⟩, bottom_right := ⟨0, 0⟩, converted := false } }

/-- A converter whose forward affine is `c = (0, 1, 0, 100, 0, -1)`: one projected unit per
pixel, origin `(0, 100)`, the y axis pointing down.  Its inverse is `(0, 1, 0, 100, 0, -1)`
too. -/
def shifted_converter : Converter ℚ :=
  { _view := { MaxLat := 100, MaxLon := 100, MinLat := 0, MinLon := 0, height := 100,
               width := 100 },
    _source_srs := some 4326,
    _target_srs := some 54004,
    _geo_to_proj := some (fun x y => (true, x, y)),
    _proj_to_geo := some (fun x y => (true, x, y)),
    _adf_projection := ![0, 1, 0, 100, 0, -1],
    _inv_projection := ![0, 1, 0, 100, 0, -1],
    _interrupt := false }

/-- A stand-in for the geometry engine that knows two WKT texts; a geometry is held as its
native bounding box. -/
def table_engine : GeometryEngine ℚ (OGREnvelope ℚ) :=
  { createFromWkb := fun _ => (1, none),
    createFromWkt := fun s =>
      if s = "POINT(1 2)" then (0, some ⟨1, 1, 2, 2⟩)
      else if s = "LINESTRING(-4 0,2 1)" then (0, some ⟨-4, 2, 0, 1⟩)
      else (1, none),
    getEnvelope := fun g => g }

/-- Two `add_feature` calls with WKT payloads. -/
def two_calls : List (Int × String × Bool) :=
  [(1, "POINT(1 2)", true), (2, "LINESTRING(-4 0,2 1)", true)]

/-- A projection engine whose factory never builds a transformation and whose inversion
gives zeros: a call of either shows in the result of `change_projection`. -/
def refusing_engine : ProjectionEngine ℚ :=
  { OGRCreateCoordinateTransformation := fun _ _ => none,
    GDALInvGeoTransform := fun _ _ _ => 0 }

/-- A layer without features, with its interrupt flag clear. -/
def empty_layer : Layer ℚ (OGRGeometry ℚ) := Layer.new 7 (1 / 2)

/-- A stand-in for the geometry engine over `OGRGeometry` that parses nothing and gives the
box `(0,0)-(1,1)` as the native envelope of whatever it is asked about. -/
def unit_engine : GeometryEngine ℚ (OGRGeometry ℚ) :=
  { createFromWkb := fun _ => (1, none),
    createFromWkt := fun _ => (1, none),
    getEnvelope := fun _ => ⟨0, 1, 0, 1⟩ }

/-- A layer, interrupt flag clear, with two rendered features: the first holds the line
`elbow_line`, the second the square `square_polygon`. -/
def two_feature_layer : Layer ℚ (OGRGeometry ℚ) :=
  { _layer_id := 1, _show := true, _interrupt := false, _fill_polygons := false,
    _features :=
      [{ _row_id := 1, _geometry := Importer.new, _shapes := [elbow_line] },
       { _row_id := 2, _geometry := Importer.new, _shapes := [square_polygon] }],
    _spatial_envelope := Envelope.new, _render_progress := 1 }

/-- An importer, interrupt flag clear, that holds the line string `(0,0), (1,0), (1,1)`. -/
def line_importer : Importer (OGRGeometry ℚ) :=
  { _geometry := some (.wkbLineString [⟨0, 0⟩, ⟨1, 0⟩, ⟨1, 1⟩]), _interrupt := false }

/-- An importer, interrupt flag clear, that holds a polygon with the exterior ring
`(0,0), (9,0), (9,9), (0,9)` and the interior ring `(1,1), (2,1), (2,2)`. -/
def holed_importer : Importer (OGRGeometry ℚ) :=
  { _geometry := some (.wkbPolygon [⟨0, 0⟩, ⟨9, 0⟩, ⟨9, 9⟩, ⟨0, 9⟩]
      [[⟨1, 1⟩, ⟨2, 1⟩, ⟨2, 2⟩]]),
    _interrupt := false }

/-- A stand-in for a projection that fails at the poles, as Mercator does: it succeeds for
`-90 < y < 90`, scaling by 100, and otherwise fails and leaves the coordinates as they
are. -/
def polar_transform : CoordinateTransformation ℚ :=
  fun x y => if -90 < y ∧ y < 90 then (true, 100 * x, 100 * y) else (false, x, y)

/-- The converter `shifted_converter` with `polar_transform` as its geodetic-to-projected
transformation. -/
def polar_converter : Converter ℚ :=
  { shifted_converter with _geo_to_proj := some polar_transform }

/-- A triangle that reaches the north pole, as `extract_points` gives it: the box has
`top_left = (MinX, MaxY) = (-10, 90)` and `bottom_right = (MaxX, MinY) = (10, 80)`. -/
def polar_cap : ShapeContainer ℚ :=
  { type := .ShapePolygon, points := [⟨0, 90⟩, ⟨10, 80⟩, ⟨-10, 80⟩],
    bounding_box := { top_left := ⟨-10, 90⟩, bottom_right := ⟨10, 80⟩, converted := false } }

/-- A feature whose importer holds the line string of `line_importer` and has its interrupt
flag set; nothing is rendered yet. -/
def interrupted_line_feature : Feature ℚ (OGRGeometry ℚ) :=
  { _row_id := 1, _geometry := line_importer.interrupt, _shapes := [] }

/-- A feature whose importer holds the polygon of `holed_importer`, interrupt flag clear;
nothing is rendered yet. -/
def holed_feature : Feature ℚ (OGRGeometry ℚ) :=
  { _row_id := 2, _geometry := holed_importer, _shapes := [] }

end Examples

end spatial

/-! ## Specification predicates -/

namespace spatial

section Predicates

variable {K : Type} [LinearOrderedField K]

/-- Twice the signed area of the triangle `a b c`: positive when `c` is strictly left of the
directed line from `a` to `b`, zero when the three are collinear. -/
def cross (a b c : Point K) : K := (b.x - a.x) * (c.y - a.y) - (b.y - a.y) * (c.x - a.x)

/-- The index before `i` on a ring of `n` indices: the `j` of the loop of `within_polygon`
when it visits `i`. -/
def cyclicPred (n i : Nat) : Nat := if i = 0 then n - 1 else i - 1

/-- The value of a flag that starts false and is toggled at each `i < k` with `f i`. -/
def toggled (f : Nat → Bool) (k : Nat) : Bool :=
  (List.range k).foldl (fun c i => if f i then !c else c) false

/-- The reflection in the y axis. -/
def mirror (q : Point K) : Point K := ⟨-q.x, q.y⟩

/-- The vertex `points[i]`, as the loop of `within_polygon` reads it. -/
def vertex (pts : List (Point K)) (i : Nat) : Point K := pts.getD i ⟨0, 0⟩

/-- The vertices are listed counter-clockwise around a convex region: every vertex is on the
left of, or on, the line of every edge, the edge `i` going from vertex `i` to vertex
`(i + 1) mod n`. -/
def ConvexCounterClockwise (pts : List (Point K)) : Prop :=
  ∀ i k, i < pts.length → k < pts.length →
    0 ≤ cross (vertex pts i) (vertex pts ((i + 1) % pts.length)) (vertex pts k)

/-- The vertices are listed clockwise around a convex region: every vertex is on the right
of, or on, the line of every edge. -/
def ConvexClockwise (pts : List (Point K)) : Prop :=
  ∀ i k, i < pts.length → k < pts.length →
    cross (vertex pts i) (vertex pts ((i + 1) % pts.length)) (vertex pts k) ≤ 0

/-- The points list, in boundary order, the vertices of a simple convex polygon: at least
three vertices, no vertex twice, and one of the two convex orientations.  Every simple
convex polygon meets this, also one with collinear consecutive vertices. -/
def SimpleConvexPolygon (pts : List (Point K)) : Prop :=
  3 ≤ pts.length ∧ pts.Nodup ∧ (ConvexCounterClockwise pts ∨ ConvexClockwise pts)

/-- The point `p` is strictly inside the convex polygon: strictly on the same side of the
line of every edge. -/
def StrictlyInside (pts : List (Point K)) (p : Point K) : Prop :=
  (∀ i, i < pts.length →
    0 < cross (vertex pts i) (vertex pts ((i + 1) % pts.length)) p) ∨
  (∀ i, i < pts.length →
    cross (vertex pts i) (vertex pts ((i + 1) % pts.length)) p < 0)

/-- The box has `top_left = (minimum vertex x, minimum vertex y)` and
`bottom_right = (maximum vertex x, maximum vertex y)`. -/
def IsVertexBox (pts : List (Point K)) (bb : Envelope K) : Prop :=
  IsLeast {t | ∃ q ∈ pts, t = q.x} bb.top_left.x ∧
  IsLeast {t | ∃ q ∈ pts, t = q.y} bb.top_left.y ∧
  IsGreatest {t | ∃ q ∈ pts, t = q.x} bb.bottom_right.x ∧
  IsGreatest {t | ∃ q ∈ pts, t = q.y} bb.bottom_right.y

/-- The Euclidean distance between two points, for the square root `sqrt`. -/
def euclidean_distance (sqrt : K → K) (a b : Point K) : K :=
  sqrt ((a.x - b.x) ^ 2 + (a.y - b.y) ^ 2)

/-- The point `start + s (stop - start)` of the line through `start` and `stop`; it is on
the closed segment when `0 ≤ s ≤ 1`. -/
def segment_point (start stop : Point K) (s : K) : Point K :=
  ⟨start.x + s * (stop.x - start.x), start.y + s * (stop.y - start.y)⟩

/-- The inverse coefficients `inv` undo the forward geotransform `c`: mapping a pixel
`(P, L)` forward to `(c0 + P c1 + L c2, c3 + P c4 + L c5)` and back through `inv` gives
`(P, L)` again. -/
def IsExactInverse (c inv : Fin 6 → K) : Prop :=
  ∀ P L : K,
    inv 0 + (c 0 + P * c 1 + L * c 2) * inv 1 + (c 3 + P * c 4 + L * c 5) * inv 2 = P ∧
    inv 3 + (c 0 + P * c 1 + L * c 2) * inv 4 + (c 3 + P * c 4 + L * c 5) * inv 5 = L

/-- All four coordinates of an envelope are inside the geodetic range:
`-180 ≤ x ≤ 180` and `-90 ≤ y ≤ 90`. -/
def InGeodeticRange (env : Envelope K) : Prop :=
  (-180 ≤ env.top_left.x ∧ env.top_left.x ≤ 180) ∧
  (-90 ≤ env.top_left.y ∧ env.top_left.y ≤ 90) ∧
  (-180 ≤ env.bottom_right.x ∧ env.bottom_right.x ≤ 180) ∧
  (-90 ≤ env.bottom_right.y ∧ env.bottom_right.y ≤ 90)

/-- The geodetic envelope of a feature: what `Feature::get_envelope` leaves in a freshly
constructed `Envelope`, as in `Layer::add_feature`. -/
def Feature.envelope {G : Type} (eng : GeometryEngine K G) (f : Feature K G) : Envelope K :=
  f.get_envelope eng Envelope.new

/-- The layer that a sequence of `add_feature` calls builds from a new layer; a call is the
triple of its arguments `(row_id, geom_data, wkt)`. -/
def Layer.build {G : Type} (eng : GeometryEngine K G) (layer_id : Int) (progress0 : K)
    (calls : List (Int × String × Bool)) : Layer K G :=
  calls.foldl (fun layer c => layer.add_feature eng c.1 c.2.1 c.2.2)
    (Layer.new layer_id progress0)

/-- What the aggregate envelope of a layer keeps at every step: each coordinate bounds the
same coordinate of every feature envelope on its side, and is the sentinel or the coordinate
of some feature. -/
def EnvelopeCovers {G : Type} (eng : GeometryEngine K G) (layer : Layer K G) : Prop :=
  ((∀ f ∈ layer._features, layer._spatial_envelope.top_left.x ≤ (f.envelope eng).top_left.x) ∧
    (layer._spatial_envelope.top_left.x = 180 ∨
      ∃ f ∈ layer._features, layer._spatial_envelope.top_left.x = (f.envelope eng).top_left.x)) ∧
  ((∀ f ∈ layer._features, (f.envelope eng).top_left.y ≤ layer._spatial_envelope.top_left.y) ∧
    (layer._spatial_envelope.top_left.y = -90 ∨
      ∃ f ∈ layer._features, layer._spatial_envelope.top_left.y = (f.envelope eng).top_left.y)) ∧
  ((∀ f ∈ layer._features,
      (f.envelope eng).bottom_right.x ≤ layer._spatial_envelope.bottom_right.x) ∧
    (layer._spatial_envelope.bottom_right.x = -180 ∨
      ∃ f ∈ layer._features,
        layer._spatial_envelope.bottom_right.x = (f.envelope eng).bottom_right.x)) ∧
  ((∀ f ∈ layer._features,
      layer._spatial_envelope.bottom_right.y ≤ (f.envelope eng).bottom_right.y) ∧
    (layer._spatial_envelope.bottom_right.y = 90 ∨
      ∃ f ∈ layer._features,
        layer._spatial_envelope.bottom_right.y = (f.envelope eng).bottom_right.y))

/-- What the aggregate envelope of a layer keeps at every step, whatever the feature
envelopes are: no coordinate is on the outer side of its sentinel. -/
def EnvelopeWithinSentinel (env : Envelope K) : Prop :=
  env.top_left.x ≤ 180 ∧ -90 ≤ env.top_left.y ∧
    -180 ≤ env.bottom_right.x ∧ env.bottom_right.y ≤ 90

/-- The geodetic-to-projected transformation of the point succeeds. -/
def transformable (geo_to_proj : CoordinateTransformation K) (q : Point K) : Bool :=
  (geo_to_proj q.x q.y).1

/-- The projected coordinates that the transformation leaves in the point. -/
def projected (geo_to_proj : CoordinateTransformation K) (q : Point K) : Point K :=
  ⟨(geo_to_proj q.x q.y).2.1, (geo_to_proj q.x q.y).2.2⟩

/-- The pixel that `from_projected` gives for the coordinates of a projected point, as a
point. -/
def Converter.pixel [FloorRing K] (cv : Converter K) (q : Point K) : Point K :=
  ⟨((cv.from_projected q.x q.y).1 : K), ((cv.from_projected q.x q.y).2 : K)⟩

/-- The indices, counted from `i`, of the points whose transformation fails. -/
def failed_indices (geo_to_proj : CoordinateTransformation K) : Nat → List (Point K) → List Nat
  | _, [] => []
  | i, q :: rest =>
    (if transformable geo_to_proj q then [] else [i]) ++ failed_indices geo_to_proj (i + 1) rest

mutual
/-- The vertex lists of the simple shapes of a geometry, in the order of the decomposition:
one for a point, a line string or a ring, one per ring for a polygon, those of the members
for a collection. -/
def OGRGeometry.simple_shapes : OGRGeometry K → List (List (Point K))
  | .wkbPoint x y => [[⟨x, y⟩]]
  | .wkbLineString line => [line]
  | .wkbLinearRing ring => [ring]
  | .wkbPolygon exterior interior => exterior :: interior
  | .wkbGeometryCollection members => OGRGeometry.simple_shapes_of_members members
  | .wkbUnknown => []
/-- The vertex lists of the simple shapes of the members of a collection. -/
def OGRGeometry.simple_shapes_of_members : List (OGRGeometry K) → List (List (Point K))
  | [] => []
  | g :: rest => g.simple_shapes ++ OGRGeometry.simple_shapes_of_members rest
end

/-- The vertex lists of the simple shapes of the geometry an importer holds; none for a
null geometry. -/
def Importer.simple_shapes (imp : Importer (OGRGeometry K)) : List (List (Point K)) :=
  match imp._geometry with
  | some g => g.simple_shapes
  | none => []

end Predicates

/-! ## Theorems -/

section PolygonLemmas

variable {K : Type} [LinearOrderedField K]

/-! ### Indices on a ring -/

lemma cyclicPred_lt {n i : Nat} (hi : i < n) : cyclicPred n i < n := by
  unfold cyclicPred; split_ifs <;> omega

lemma succ_mod_lt {n i : Nat} (hi : i < n) : (i + 1) % n < n := Nat.mod_lt _ (by omega)

lemma cyclicPred_succ {n i : Nat} (hi : i < n) : cyclicPred n ((i + 1) % n) = i := by
  unfold cyclicPred
  by_cases h : i + 1 = n
  · rw [h, Nat.mod_self]; simp; omega
  · rw [Nat.mod_eq_of_lt (by omega)]; simp

lemma succ_cyclicPred {n i : Nat} (hi : i < n) : (cyclicPred n i + 1) % n = i := by
  unfold cyclicPred
  split_ifs with h
  · subst h
    rw [Nat.sub_add_cancel (by omega), Nat.mod_self]
  · rw [Nat.sub_add_cancel (by omega), Nat.mod_eq_of_lt hi]

lemma cyclicPred_inj {n i j : Nat} (hi : i < n) (hj : j < n)
    (h : cyclicPred n i = cyclicPred n j) : i = j := by
  rw [← succ_cyclicPred hi, ← succ_cyclicPred hj, h]

/-- No closed half plane whose boundary passes through `p` holds all the vertices of a closed
chain that turns counter-clockwise around `p`. -/
lemma no_half_plane (n : Nat) (hn : 0 < n) (v : Nat → Point K) (p : Point K) (α β : K)
    (hαβ : α ≠ 0 ∨ β ≠ 0)
    (hin : ∀ i, i < n → 0 < cross (v (cyclicPred n i)) (v i) p)
    (hall : ∀ i, i < n → 0 ≤ α * ((v i).x - p.x) + β * ((v i).y - p.y)) : False := by
  set l : Nat → K := fun i => α * ((v i).x - p.x) + β * ((v i).y - p.y) with hl
  set m : Nat → K := fun i => α * ((v i).y - p.y) - β * ((v i).x - p.x) with hm
  have hQ : 0 < α ^ 2 + β ^ 2 := by
    rcases hαβ with h | h
    · have := pow_pos (abs_pos.mpr h) 2
      rw [sq_abs] at this
      positivity
    · have := pow_pos (abs_pos.mpr h) 2
      rw [sq_abs] at this
      positivity
  have key : ∀ i, i < n → 0 < l (cyclicPred n i) * m i - m (cyclicPred n i) * l i := by
    intro i hi
    have e : l (cyclicPred n i) * m i - m (cyclicPred n i) * l i
        = (α ^ 2 + β ^ 2) * cross (v (cyclicPred n i)) (v i) p := by
      simp only [hl, hm, cross]
      ring
    rw [e]
    exact mul_pos hQ (hin i hi)
  have hpos : ∀ i, i < n → 0 < l i := by
    intro i hi
    by_contra h
    have h0 : l i = 0 := le_antisymm (not_lt.mp h) (hall i hi)
    have k1 := key i hi
    have k2 := key ((i + 1) % n) (succ_mod_lt hi)
    rw [cyclicPred_succ hi] at k2
    rw [h0] at k1 k2
    have hp := hall (cyclicPred n i) (cyclicPred_lt hi)
    have hs := hall ((i + 1) % n) (succ_mod_lt hi)
    change 0 ≤ l (cyclicPred n i) at hp
    change 0 ≤ l ((i + 1) % n) at hs
    rcases le_or_lt (m i) 0 with hmi | hmi
    · have := mul_nonpos_of_nonneg_of_nonpos hp hmi
      linarith
    · have := mul_nonneg hmi.le hs
      linarith
  obtain ⟨j, hj, hmin⟩ := Finset.exists_min_image (Finset.range n) (fun i => m i / l i)
    ⟨0, Finset.mem_range.mpr hn⟩
  have hjn : j < n := Finset.mem_range.mp hj
  have hlt : m (cyclicPred n j) / l (cyclicPred n j) < m j / l j := by
    rw [div_lt_div_iff₀ (hpos _ (cyclicPred_lt hjn)) (hpos _ hjn)]
    have := key j hjn
    linarith
  have := hmin (cyclicPred n j) (Finset.mem_range.mpr (cyclicPred_lt hjn))
  exact absurd hlt (not_lt.mpr this)

lemma toggled_succ (f : Nat → Bool) (k : Nat) :
    toggled f (k + 1) = if f k then !(toggled f k) else toggled f k := by
  simp [toggled, List.range_succ, List.foldl_append]

lemma toggled_of_unique (f : Nat → Bool) (i0 : Nat) (h0 : f i0 = true) (k : Nat)
    (hf : ∀ i, i < k → i ≠ i0 → f i = false) : toggled f k = decide (i0 < k) := by
  induction k with
  | zero => simp [toggled]
  | succ k ih =>
    rw [toggled_succ, ih (fun i hi hne => hf i (by omega) hne)]
    by_cases hk : k = i0
    · subst hk
      simp [h0]
    · rw [hf k (by omega) hk]
      have : (i0 < k + 1) ↔ (i0 < k) := by omega
      simp [this]

lemma toggled_up_down (n : Nat) (s : Nat → Bool) (k : Nat) (hk : k < n) :
    xor (toggled (fun i => !s (cyclicPred n i) && s i) (k + 1))
        (toggled (fun i => s (cyclicPred n i) && !s i) (k + 1)) = xor (s (n - 1)) (s k) := by
  induction k with
  | zero =>
    have h0 : ∀ f : Nat → Bool, toggled f 0 = false := fun f => rfl
    rw [toggled_succ, toggled_succ (fun i => s (cyclicPred n i) && !s i), h0, h0]
    have hp : cyclicPred n 0 = n - 1 := by simp [cyclicPred]
    simp only [hp]
    cases s (n - 1) <;> cases s 0 <;> simp
  | succ k ih =>
    have ih' := ih (by omega)
    rw [toggled_succ, toggled_succ (fun i => s (cyclicPred n i) && !s i)]
    have hp : cyclicPred n (k + 1) = k := by simp [cyclicPred]
    simp only [hp]
    revert ih'
    generalize toggled (fun i => !s (cyclicPred n i) && s i) (k + 1) = u
    generalize toggled (fun i => s (cyclicPred n i) && !s i) (k + 1) = d
    cases u <;> cases d <;> cases s (n - 1) <;> cases s k <;> cases s (k + 1) <;> simp

lemma toggled_up_eq_down (n : Nat) (hn : 0 < n) (s : Nat → Bool) :
    toggled (fun i => s (cyclicPred n i) && !s i) n =
      toggled (fun i => !s (cyclicPred n i) && s i) n := by
  have h := toggled_up_down n s (n - 1) (by omega)
  rw [Nat.sub_add_cancel hn] at h
  revert h
  generalize toggled (fun i => !s (cyclicPred n i) && s i) n = u
  generalize toggled (fun i => s (cyclicPred n i) && !s i) n = d
  cases u <;> cases d <;> cases s (n - 1) <;> simp

lemma toggled_congr (f g : Nat → Bool) (k : Nat) (h : ∀ i, i < k → f i = g i) :
    toggled f k = toggled g k := by
  induction k with
  | zero => rfl
  | succ k ih =>
    rw [toggled_succ, toggled_succ, ih (fun i hi => h i (by omega)), h k (by omega)]

lemma within_polygon_loop_eq (points : List (Point K)) (p : Point K) (n k : Nat) :
    (List.range k).foldl (within_polygon_step points p) (false, n - 1) =
      (toggled (fun i => polygon_edge_crossed (points.getD i ⟨0, 0⟩)
        (points.getD (cyclicPred n i) ⟨0, 0⟩) p) k, cyclicPred n k) := by
  induction k with
  | zero => simp [toggled, cyclicPred]
  | succ k ih =>
    rw [List.range_succ, List.foldl_append, ih, toggled_succ]
    simp [within_polygon_step, cyclicPred]

lemma edge_crossing_offset (a b p : Point K) (h : a.y ≠ b.y) :
    (a.x - b.x) * (p.y - b.y) / (a.y - b.y) + b.x - p.x = cross a b p / (b.y - a.y) := by
  have h1 : a.y - b.y ≠ 0 := sub_ne_zero.mpr h
  have h2 : b.y - a.y ≠ 0 := sub_ne_zero.mpr (Ne.symm h)
  unfold cross
  field_simp
  ring

lemma edge_crossed_of_left (a b p : Point K) (h : 0 < cross a b p) :
    polygon_edge_crossed b a p = (!decide (a.y > p.y) && decide (b.y > p.y)) := by
  unfold polygon_edge_crossed
  by_cases ha : a.y > p.y <;> by_cases hb : b.y > p.y
  · simp [ha, hb]
  · have hne : a.y ≠ b.y := by intro e; rw [e] at ha; exact hb ha
    have hoff := edge_crossing_offset a b p hne
    have hneg : b.y - a.y < 0 := by linarith [not_lt.mp hb]
    have : cross a b p / (b.y - a.y) < 0 := div_neg_of_pos_of_neg h hneg
    have hx : ¬ p.x < (a.x - b.x) * (p.y - b.y) / (a.y - b.y) + b.x := by
      intro hlt; linarith
    simp [ha, hb, hx]
  · have hne : a.y ≠ b.y := by intro e; rw [e] at ha; exact ha hb
    have hoff := edge_crossing_offset a b p hne
    have hpos : 0 < b.y - a.y := by linarith [not_lt.mp ha]
    have : 0 < cross a b p / (b.y - a.y) := div_pos h hpos
    have hx : p.x < (a.x - b.x) * (p.y - b.y) / (a.y - b.y) + b.x := by linarith
    simp [ha, hb, hx]
  · simp [ha, hb]

lemma edge_crossed_of_right (a b p : Point K) (h : cross a b p < 0) :
    polygon_edge_crossed b a p = (decide (a.y > p.y) && !decide (b.y > p.y)) := by
  unfold polygon_edge_crossed
  by_cases ha : a.y > p.y <;> by_cases hb : b.y > p.y
  · simp [ha, hb]
  · have hne : a.y ≠ b.y := by intro e; rw [e] at ha; exact hb ha
    have hoff := edge_crossing_offset a b p hne
    have hneg : b.y - a.y < 0 := by linarith [not_lt.mp hb]
    have : 0 < cross a b p / (b.y - a.y) := div_pos_of_neg_of_neg h hneg
    have hx : p.x < (a.x - b.x) * (p.y - b.y) / (a.y - b.y) + b.x := by linarith
    simp [ha, hb, hx]
  · have hne : a.y ≠ b.y := by intro e; rw [e] at ha; exact ha hb
    have hoff := edge_crossing_offset a b p hne
    have hpos : 0 < b.y - a.y := by linarith [not_lt.mp ha]
    have : cross a b p / (b.y - a.y) < 0 := div_neg_of_neg_of_pos h hpos
    have hx : ¬ p.x < (a.x - b.x) * (p.y - b.y) / (a.y - b.y) + b.x := by
      intro hlt; linarith
    simp [ha, hb, hx]
  · simp [ha, hb]

/-! ### Upward crossings of the level of `p` -/

lemma exists_up_crossing (n : Nat) (hn : 0 < n) (v : Nat → Point K) (p : Point K)
    (hin : ∀ i, i < n → 0 < cross (v (cyclicPred n i)) (v i) p) :
    ∃ i, i < n ∧ (v (cyclicPred n i)).y ≤ p.y ∧ p.y < (v i).y := by
  have hup : ∃ j, j < n ∧ p.y < (v j).y := by
    by_contra h
    push_neg at h
    refine no_half_plane n hn v p 0 (-1) (Or.inr (by norm_num)) hin (fun i hi => ?_)
    have := h i hi
    linarith
  have hdown : ∃ k, k < n ∧ (v k).y ≤ p.y := by
    by_contra h
    push_neg at h
    refine no_half_plane n hn v p 0 1 (Or.inr one_ne_zero) hin (fun i hi => ?_)
    have := h i hi
    linarith
  by_contra hno
  push_neg at hno
  have hstep : ∀ i, i < n → p.y < (v i).y → p.y < (v (cyclicPred n i)).y := by
    intro i hi h
    by_contra hc
    exact absurd h (not_lt.mpr (hno i hi (not_lt.mp hc)))
  have hdesc : ∀ d i, i < n → p.y < (v i).y → d ≤ i → p.y < (v (i - d)).y := by
    intro d
    induction d with
    | zero => intro i _ h _; simpa using h
    | succ d ih =>
      intro i hi h hd
      have h1 := ih i hi h (by omega)
      have h2 := hstep (i - d) (by omega) h1
      have e : cyclicPred n (i - d) = i - (d + 1) := by
        unfold cyclicPred
        rw [if_neg (by omega)]
        omega
      rwa [e] at h2
  obtain ⟨j, hj, hjy⟩ := hup
  obtain ⟨k, hk, hky⟩ := hdown
  have h0 : p.y < (v 0).y := by
    have := hdesc j j hj hjy (le_refl _)
    simpa using this
  have hlast : p.y < (v (n - 1)).y := by
    have := hstep 0 hn h0
    simpa [cyclicPred] using this
  have hkk := hdesc (n - 1 - k) (n - 1) (by omega) hlast (by omega)
  have e : n - 1 - (n - 1 - k) = k := by omega
  rw [e] at hkk
  exact absurd hkk (not_lt.mpr hky)

/-- Two upward crossings, each with the other edge weakly on its left: the start of each
edge is on the line of the other. -/
lemma collinear_of_two_crossings (a b c d p : Point K)
    (ha : a.y ≤ p.y) (hb : p.y < b.y) (hc : c.y ≤ p.y) (hd : p.y < d.y)
    (h1 : 0 ≤ cross a b c) (h2 : 0 ≤ cross a b d) (h3 : 0 ≤ cross c d a)
    (h4 : 0 ≤ cross c d b) : cross a b c = 0 := by
  have hsum : (d.y - p.y) * cross a b c + (p.y - c.y) * cross a b d
      + ((b.y - p.y) * cross c d a + (p.y - a.y) * cross c d b) = 0 := by
    unfold cross
    ring
  have t1 : 0 ≤ (d.y - p.y) * cross a b c := mul_nonneg (by linarith) h1
  have t2 : 0 ≤ (p.y - c.y) * cross a b d := mul_nonneg (by linarith) h2
  have t3 : 0 ≤ (b.y - p.y) * cross c d a := mul_nonneg (by linarith) h3
  have t4 : 0 ≤ (p.y - a.y) * cross c d b := mul_nonneg (by linarith) h4
  have t1z : (d.y - p.y) * cross a b c = 0 := by linarith
  rcases mul_eq_zero.mp t1z with h | h
  · linarith
  · exact h

/-- A vertex `c` strictly inside an edge `a b` on the line `x = x0 + μ (y - y0)`, with `a`
and `b` weakly left of the edge `c' c` that arrives at it and `p` strictly left of that
edge and of the line: then `c'` is on the line, below `c`. -/
lemma predecessor_on_line (x0 y0 μ : K) (a b c c' p : Point K)
    (ha : a.x = x0 + μ * (a.y - y0)) (hb : b.x = x0 + μ * (b.y - y0))
    (hc : c.x = x0 + μ * (c.y - y0)) (hac : a.y < c.y) (hcb : c.y < b.y)
    (h1 : 0 ≤ cross c' c a) (h2 : 0 ≤ cross c' c b) (h3 : 0 < cross c' c p)
    (hp : p.x < x0 + μ * (p.y - y0)) :
    c'.x = x0 + μ * (c'.y - y0) ∧ c'.y < c.y := by
  have e1 : cross c' c a = (c'.x - (x0 + μ * (c'.y - y0))) * (c.y - a.y) := by
    unfold cross
    rw [ha, hc]
    ring
  have e2 : cross c' c b = (c'.x - (x0 + μ * (c'.y - y0))) * (c.y - b.y) := by
    unfold cross
    rw [hb, hc]
    ring
  rw [e1] at h1
  rw [e2] at h2
  have d1 : 0 ≤ c'.x - (x0 + μ * (c'.y - y0)) :=
    nonneg_of_mul_nonneg_left h1 (by linarith)
  have d2 : c'.x - (x0 + μ * (c'.y - y0)) ≤ 0 := by
    by_contra h
    have := mul_neg_of_pos_of_neg (not_le.mp h) (show c.y - b.y < 0 by linarith)
    linarith
  have hc' : c'.x = x0 + μ * (c'.y - y0) := by linarith
  refine ⟨hc', ?_⟩
  have e3 : cross c' c p = (c.y - c'.y) * (x0 + μ * (p.y - y0) - p.x) := by
    unfold cross
    rw [hc', hc]
    ring
  rw [e3] at h3
  have := pos_of_mul_pos_left h3 (by linarith)
  linarith

/-- In a closed chain of distinct vertices that is convex and turns counter-clockwise around
`p`, no vertex lies strictly inside an edge that goes up along a line with `p` on its
left. -/
lemma no_vertex_inside_edge (n : Nat) (v : Nat → Point K) (p : Point K)
    (hin : ∀ i, i < n → 0 < cross (v (cyclicPred n i)) (v i) p)
    (hconv : ∀ i k, i < n → k < n → 0 ≤ cross (v (cyclicPred n i)) (v i) (v k))
    (hinj : ∀ i k, i < n → k < n → v i = v k → i = k)
    (x0 y0 μ : K) (hp : p.x < x0 + μ * (p.y - y0)) (m i : Nat) (hm : m < n) (hi : i < n)
    (hLm : (v m).x = x0 + μ * ((v m).y - y0))
    (hLa : (v (cyclicPred n i)).x = x0 + μ * ((v (cyclicPred n i)).y - y0))
    (hLb : (v i).x = x0 + μ * ((v i).y - y0))
    (h1 : (v (cyclicPred n i)).y < (v m).y) (h2 : (v m).y < (v i).y) : False := by
  classical
  let bad : Nat → Prop := fun m => ∃ i, i < n ∧ (v m).x = x0 + μ * ((v m).y - y0) ∧
    (v (cyclicPred n i)).x = x0 + μ * ((v (cyclicPred n i)).y - y0) ∧
    (v i).x = x0 + μ * ((v i).y - y0) ∧
    (v (cyclicPred n i)).y < (v m).y ∧ (v m).y < (v i).y
  have hne : ((Finset.range n).filter bad).Nonempty :=
    ⟨m, Finset.mem_filter.mpr ⟨Finset.mem_range.mpr hm, i, hi, hLm, hLa, hLb, h1, h2⟩⟩
  obtain ⟨m0, hm0, hmin⟩ := Finset.exists_min_image _ (fun m => (v m).y) hne
  obtain ⟨hm0n, i0, hi0, gLm, gLa, gLb, g1, g2⟩ := Finset.mem_filter.mp hm0
  have hm0n' : m0 < n := Finset.mem_range.mp hm0n
  have hpm : cyclicPred n m0 < n := cyclicPred_lt hm0n'
  have hpi : cyclicPred n i0 < n := cyclicPred_lt hi0
  obtain ⟨hLc', hlow⟩ := predecessor_on_line x0 y0 μ (v (cyclicPred n i0)) (v i0) (v m0)
    (v (cyclicPred n m0)) p gLa gLb gLm g1 g2 (hconv m0 _ hm0n' hpi) (hconv m0 _ hm0n' hi0)
    (hin m0 hm0n') hp
  rcases lt_trichotomy (v (cyclicPred n i0)).y (v (cyclicPred n m0)).y with h | h | h
  · have hbad : cyclicPred n m0 ∈ (Finset.range n).filter bad :=
      Finset.mem_filter.mpr ⟨Finset.mem_range.mpr hpm, i0, hi0, hLc', gLa, gLb, h,
        lt_trans hlow g2⟩
    exact absurd hlow (not_lt.mpr (hmin _ hbad))
  · have hpt : v (cyclicPred n i0) = v (cyclicPred n m0) := by
      have hx : (v (cyclicPred n i0)).x = (v (cyclicPred n m0)).x := by rw [gLa, hLc', h]
      cases hv1 : v (cyclicPred n i0)
      cases hv2 : v (cyclicPred n m0)
      rw [hv1, hv2] at hx h
      simp only at hx h
      rw [hx, h]
    have := cyclicPred_inj hi0 hm0n' (hinj _ _ hpi hpm hpt)
    rw [this] at g2
    exact lt_irrefl _ g2
  · have hbad : cyclicPred n i0 ∈ (Finset.range n).filter bad :=
      Finset.mem_filter.mpr ⟨Finset.mem_range.mpr hpi, m0, hm0n', gLa, hLc', gLm, h, g1⟩
    exact absurd g1 (not_lt.mpr (hmin _ hbad))

/-- The line through `a` and `b`, for `a.y < b.y`, written as `x = a.x + μ (y - a.y)`: a
point with `cross a b c = 0` is on it. -/
lemma on_line_of_cross_eq_zero (a b c : Point K) (hab : a.y < b.y) (h : cross a b c = 0) :
    c.x = a.x + (b.x - a.x) / (b.y - a.y) * (c.y - a.y) := by
  have hne : b.y - a.y ≠ 0 := by linarith
  unfold cross at h
  field_simp
  linear_combination -h

lemma left_of_line_of_cross_pos (a b p : Point K) (hab : a.y < b.y) (h : 0 < cross a b p) :
    p.x < a.x + (b.x - a.x) / (b.y - a.y) * (p.y - a.y) := by
  have hpos : 0 < b.y - a.y := by linarith
  unfold cross at h
  have e : a.x + (b.x - a.x) / (b.y - a.y) * (p.y - a.y) - p.x
      = ((b.x - a.x) * (p.y - a.y) - (b.y - a.y) * (p.x - a.x)) / (b.y - a.y) := by
    field_simp
    ring
  have := div_pos h hpos
  linarith

lemma up_crossing_ordered_absurd (n : Nat) (v : Nat → Point K) (p : Point K)
    (hin : ∀ i, i < n → 0 < cross (v (cyclicPred n i)) (v i) p)
    (hconv : ∀ i k, i < n → k < n → 0 ≤ cross (v (cyclicPred n i)) (v i) (v k))
    (hinj : ∀ i k, i < n → k < n → v i = v k → i = k) (i j : Nat) (hi : i < n) (hj : j < n)
    (hia : (v (cyclicPred n i)).y ≤ p.y) (hib : p.y < (v i).y)
    (hjc : (v (cyclicPred n j)).y ≤ p.y) (hjd : p.y < (v j).y)
    (hlt : (v (cyclicPred n i)).y < (v (cyclicPred n j)).y) : False := by
  have hpi : cyclicPred n i < n := cyclicPred_lt hi
  have hpj : cyclicPred n j < n := cyclicPred_lt hj
  have hcol := collinear_of_two_crossings _ _ _ _ p hia hib hjc hjd (hconv i _ hi hpj)
    (hconv i j hi hj) (hconv j _ hj hpi) (hconv j i hj hi)
  have hab : (v (cyclicPred n i)).y < (v i).y := lt_of_le_of_lt hia hib
  refine no_vertex_inside_edge n v p hin hconv hinj (v (cyclicPred n i)).x
    (v (cyclicPred n i)).y (((v i).x - (v (cyclicPred n i)).x) / ((v i).y - (v (cyclicPred n i)).y))
    (left_of_line_of_cross_pos _ _ p hab (hin i hi)) (cyclicPred n j) i hpj hi
    (on_line_of_cross_eq_zero _ _ _ hab hcol) (by simp) ?_ hlt (lt_of_le_of_lt hjc hib)
  have hne : (v i).y - (v (cyclicPred n i)).y ≠ 0 := by linarith
  field_simp

/-- In a closed chain of distinct vertices that is convex and turns counter-clockwise around
`p`, at most one edge crosses the level of `p` upwards. -/
lemma up_crossing_unique (n : Nat) (v : Nat → Point K) (p : Point K)
    (hin : ∀ i, i < n → 0 < cross (v (cyclicPred n i)) (v i) p)
    (hconv : ∀ i k, i < n → k < n → 0 ≤ cross (v (cyclicPred n i)) (v i) (v k))
    (hinj : ∀ i k, i < n → k < n → v i = v k → i = k) (i j : Nat) (hi : i < n) (hj : j < n)
    (hia : (v (cyclicPred n i)).y ≤ p.y) (hib : p.y < (v i).y)
    (hjc : (v (cyclicPred n j)).y ≤ p.y) (hjd : p.y < (v j).y) : i = j := by
  rcases lt_trichotomy (v (cyclicPred n i)).y (v (cyclicPred n j)).y with h | h | h
  · exact (up_crossing_ordered_absurd n v p hin hconv hinj i j hi hj hia hib hjc hjd h).elim
  · have hpi : cyclicPred n i < n := cyclicPred_lt hi
    have hpj : cyclicPred n j < n := cyclicPred_lt hj
    have hcol := collinear_of_two_crossings _ _ _ _ p hia hib hjc hjd (hconv i _ hi hpj)
      (hconv i j hi hj) (hconv j _ hj hpi) (hconv j i hj hi)
    have hab : (v (cyclicPred n i)).y < (v i).y := lt_of_le_of_lt hia hib
    have hx := on_line_of_cross_eq_zero _ _ _ hab hcol
    rw [← h, sub_self, mul_zero, add_zero] at hx
    have hpt : v (cyclicPred n i) = v (cyclicPred n j) := by
      cases hv1 : v (cyclicPred n i)
      cases hv2 : v (cyclicPred n j)
      rw [hv1, hv2] at hx h
      simp only at hx h
      rw [hx, h]
    exact cyclicPred_inj hi hj (hinj _ _ hpi hpj hpt)
  · exact (up_crossing_ordered_absurd n v p hin hconv hinj j i hj hi hjc hjd hia hib h).elim

/-! ### The mirror image, for chains that turn clockwise -/

lemma cross_mirror (a b c : Point K) : cross (mirror a) (mirror b) (mirror c) = -cross a b c := by
  unfold cross mirror
  ring

lemma mirror_injective (a b : Point K) (h : mirror a = mirror b) : a = b := by
  cases a
  cases b
  simp only [mirror, Point.mk.injEq, neg_inj] at h
  rw [h.1, h.2]

lemma no_half_plane_cw (n : Nat) (hn : 0 < n) (v : Nat → Point K) (p : Point K) (α β : K)
    (hαβ : α ≠ 0 ∨ β ≠ 0)
    (hin : ∀ i, i < n → cross (v (cyclicPred n i)) (v i) p < 0)
    (hall : ∀ i, i < n → 0 ≤ α * ((v i).x - p.x) + β * ((v i).y - p.y)) : False := by
  refine no_half_plane n hn (fun i => mirror (v i)) (mirror p) (-α) β
    (hαβ.imp (fun h => neg_ne_zero.mpr h) id) (fun i hi => ?_) (fun i hi => ?_)
  · rw [cross_mirror]
    exact neg_pos.mpr (hin i hi)
  · have := hall i hi
    simp only [mirror]
    linarith

lemma exists_up_crossing_cw (n : Nat) (hn : 0 < n) (v : Nat → Point K) (p : Point K)
    (hin : ∀ i, i < n → cross (v (cyclicPred n i)) (v i) p < 0) :
    ∃ i, i < n ∧ (v (cyclicPred n i)).y ≤ p.y ∧ p.y < (v i).y :=
  exists_up_crossing n hn (fun i => mirror (v i)) (mirror p) (fun i hi => by
    rw [cross_mirror]
    exact neg_pos.mpr (hin i hi))

lemma up_crossing_unique_cw (n : Nat) (v : Nat → Point K) (p : Point K)
    (hin : ∀ i, i < n → cross (v (cyclicPred n i)) (v i) p < 0)
    (hconv : ∀ i k, i < n → k < n → cross (v (cyclicPred n i)) (v i) (v k) ≤ 0)
    (hinj : ∀ i k, i < n → k < n → v i = v k → i = k) (i j : Nat) (hi : i < n) (hj : j < n)
    (hia : (v (cyclicPred n i)).y ≤ p.y) (hib : p.y < (v i).y)
    (hjc : (v (cyclicPred n j)).y ≤ p.y) (hjd : p.y < (v j).y) : i = j :=
  up_crossing_unique n (fun i => mirror (v i)) (mirror p)
    (fun i hi => by
      rw [cross_mirror]
      exact neg_pos.mpr (hin i hi))
    (fun i k hi hk => by
      rw [cross_mirror]
      exact neg_nonneg.mpr (hconv i k hi hk))
    (fun i k hi hk h => hinj i k hi hk (mirror_injective _ _ h)) i j hi hj hia hib hjc hjd

/-! ### The crossing count -/

lemma toggled_crossed_ccw (n : Nat) (hn : 0 < n) (v : Nat → Point K) (p : Point K)
    (hin : ∀ i, i < n → 0 < cross (v (cyclicPred n i)) (v i) p)
    (hconv : ∀ i k, i < n → k < n → 0 ≤ cross (v (cyclicPred n i)) (v i) (v k))
    (hinj : ∀ i k, i < n → k < n → v i = v k → i = k) :
    toggled (fun i => polygon_edge_crossed (v i) (v (cyclicPred n i)) p) n = true := by
  obtain ⟨i0, hi0, ha0, hb0⟩ := exists_up_crossing n hn v p hin
  rw [toggled_of_unique _ i0 ?_ n ?_]
  · simpa using hi0
  · simp only [edge_crossed_of_left _ _ p (hin i0 hi0)]
    simp [not_lt.mpr ha0, hb0]
  · intro i hi hne
    simp only [edge_crossed_of_left _ _ p (hin i hi)]
    by_contra h
    simp only [Bool.not_eq_false, Bool.and_eq_true, Bool.not_eq_true', decide_eq_false_iff_not,
      decide_eq_true_eq, not_lt] at h
    exact hne (up_crossing_unique n v p hin hconv hinj i i0 hi hi0 h.1 h.2 ha0 hb0)

lemma toggled_crossed_cw (n : Nat) (hn : 0 < n) (v : Nat → Point K) (p : Point K)
    (hin : ∀ i, i < n → cross (v (cyclicPred n i)) (v i) p < 0)
    (hconv : ∀ i k, i < n → k < n → cross (v (cyclicPred n i)) (v i) (v k) ≤ 0)
    (hinj : ∀ i k, i < n → k < n → v i = v k → i = k) :
    toggled (fun i => polygon_edge_crossed (v i) (v (cyclicPred n i)) p) n = true := by
  obtain ⟨i0, hi0, ha0, hb0⟩ := exists_up_crossing_cw n hn v p hin
  rw [toggled_congr _ (fun i => decide ((v (cyclicPred n i)).y > p.y) && !decide ((v i).y > p.y))
    n (fun i hi => edge_crossed_of_right _ _ p (hin i hi))]
  rw [toggled_up_eq_down n hn (fun i => decide ((v i).y > p.y))]
  rw [toggled_of_unique _ i0 ?_ n ?_]
  · simpa using hi0
  · simp [not_lt.mpr ha0, hb0]
  · intro i hi hne
    by_contra h
    simp only [Bool.not_eq_false, Bool.and_eq_true, Bool.not_eq_true', decide_eq_false_iff_not,
      decide_eq_true_eq, not_lt] at h
    exact hne (up_crossing_unique_cw n v p hin hconv hinj i i0 hi hi0 h.1 h.2 ha0 hb0)


end PolygonLemmas

section ContainmentTheorems

variable {K : Type} [LinearOrderedField K]

/-- The loop of `within_line` answers true exactly when some consecutive pair of the
sequence `prev :: rest` is a segment at distance at most 1 from `p`. -/
lemma within_line_loop_iff (sqrt : K → K) (p : Point K) (rest : List (Point K)) :
    ∀ prev : Point K, within_line_loop sqrt p prev rest = true ↔
      ∃ (i : Nat) (a b : Point K), (prev :: rest)[i]? = some a ∧
        (prev :: rest)[i + 1]? = some b ∧ distance_to_segment sqrt a b p ≤ 1 := by
  induction rest with
  | nil =>
    intro prev
    simp [within_line_loop]
  | cons q rest ih =>
    intro prev
    by_cases h : distance_to_segment sqrt prev q p ≤ 1
    · simp only [within_line_loop, h, if_true, true_iff]
      exact ⟨0, prev, q, by simp, by simp, h⟩
    · simp only [within_line_loop, h, if_false]
      rw [ih q]
      constructor
      · rintro ⟨i, a, b, ha, hb, hd⟩
        exact ⟨i + 1, a, b, by simpa using ha, by simpa using hb, hd⟩
      · rintro ⟨i, a, b, ha, hb, hd⟩
        cases i with
        | zero =>
          simp at ha hb
          subst ha hb
          exact absurd hd h
        | succ i =>
          exact ⟨i, a, b, by simpa using ha, by simpa using hb, hd⟩

/-- The method `within_line` answers true exactly when some consecutive pair of the point
list is a segment at distance at most 1 from `p`. -/
lemma within_line_iff (sqrt : K → K) (p : Point K) (pts : List (Point K)) :
    within_line sqrt pts p = true ↔
      ∃ (i : Nat) (a b : Point K), pts[i]? = some a ∧ pts[i + 1]? = some b ∧
        distance_to_segment sqrt a b p ≤ 1 := by
  cases pts with
  | nil => simp [within_line]
  | cons q0 rest => simpa [within_line] using within_line_loop_iff sqrt p rest q0

/-- The vertices of a list without repetition are distinct. -/
lemma vertex_injective (pts : List (Point K)) (hnd : pts.Nodup) (i k : Nat)
    (hi : i < pts.length) (hk : k < pts.length) (h : vertex pts i = vertex pts k) : i = k := by
  unfold vertex at h
  rw [List.getD_eq_getElem _ _ hi, List.getD_eq_getElem _ _ hk] at h
  exact (List.Nodup.getElem_inj_iff hnd).mp h

lemma vertex_mem (pts : List (Point K)) (i : Nat) (hi : i < pts.length) :
    vertex pts i ∈ pts := by
  unfold vertex
  rw [List.getD_eq_getElem _ _ hi]
  exact List.getElem_mem hi

/-- A statement about every edge `i → (i + 1) mod n` is one about every edge
`cyclicPred n i → i`. -/
lemma edges_by_predecessor {α : Type} (n : Nat) (v : Nat → α) (P : α → α → Prop)
    (h : ∀ i, i < n → P (v i) (v ((i + 1) % n))) :
    ∀ i, i < n → P (v (cyclicPred n i)) (v i) := by
  intro i hi
  have := h (cyclicPred n i) (cyclicPred_lt hi)
  rwa [succ_cyclicPred hi] at this

/-- The difference of `cross a b` at two points, as a linear form of their difference. -/
lemma cross_sub_cross (a b q p : Point K) :
    cross a b q - cross a b p = -(b.y - a.y) * (q.x - p.x) + (b.x - a.x) * (q.y - p.y) := by
  unfold cross
  ring

/-- For a simple convex polygon and a point strictly inside it, the flag of the loop of
`within_polygon` is set at the exit, and every open half plane whose boundary passes through
the point holds a vertex. -/
lemma convex_inside_crossings (pts : List (Point K)) (p : Point K)
    (hpoly : SimpleConvexPolygon pts) (hin : StrictlyInside pts p) :
    toggled (fun i => polygon_edge_crossed (vertex pts i)
      (vertex pts (cyclicPred pts.length i)) p) pts.length = true ∧
    ∀ α β : K, (α ≠ 0 ∨ β ≠ 0) → ∃ i, i < pts.length ∧
      α * ((vertex pts i).x - p.x) + β * ((vertex pts i).y - p.y) < 0 := by
  obtain ⟨hn3, hnd, hconv⟩ := hpoly
  have hn : 0 < pts.length := by omega
  have hinj := vertex_injective pts hnd
  have hedge0 : ∀ s : K, (s = 1 ∨ s = -1) →
      0 < s * cross (vertex pts (cyclicPred pts.length 0)) (vertex pts 0) p →
      (vertex pts 0).y - (vertex pts (cyclicPred pts.length 0)).y ≠ 0 ∨
        (vertex pts 0).x - (vertex pts (cyclicPred pts.length 0)).x ≠ 0 := by
    intro s _ h
    by_contra hc
    push_neg at hc
    unfold cross at h
    rw [hc.1, hc.2] at h
    simp at h
  rcases hin with hin | hin
  · have hin' := edges_by_predecessor pts.length (vertex pts) (fun a b => 0 < cross a b p) hin
    have hp : ∀ α β : K, (α ≠ 0 ∨ β ≠ 0) → ∃ i, i < pts.length ∧
        α * ((vertex pts i).x - p.x) + β * ((vertex pts i).y - p.y) < 0 := by
      intro α β h
      by_contra hc
      push_neg at hc
      exact no_half_plane pts.length hn (vertex pts) p α β h hin' hc
    rcases hconv with hc | hc
    · have hc' : ∀ i k, i < pts.length → k < pts.length →
          0 ≤ cross (vertex pts (cyclicPred pts.length i)) (vertex pts i) (vertex pts k) :=
        fun i k hi hk => edges_by_predecessor pts.length (vertex pts)
          (fun a b => 0 ≤ cross a b (vertex pts k)) (fun i hi => hc i k hi hk) i hi
      exact ⟨toggled_crossed_ccw pts.length hn (vertex pts) p hin' hc' hinj, hp⟩
    · exfalso
      have hc' : ∀ k, k < pts.length →
          cross (vertex pts (cyclicPred pts.length 0)) (vertex pts 0) (vertex pts k) ≤ 0 :=
        fun k hk => edges_by_predecessor pts.length (vertex pts)
          (fun a b => cross a b (vertex pts k) ≤ 0) (fun i hi => hc i k hi hk) 0 hn
      have h0 := hin' 0 hn
      obtain ⟨k, hk, hlt⟩ := hp ((vertex pts 0).y - (vertex pts (cyclicPred pts.length 0)).y)
        (-((vertex pts 0).x - (vertex pts (cyclicPred pts.length 0)).x))
        ((hedge0 1 (Or.inl rfl) (by simpa using h0)).imp id (fun h => neg_ne_zero.mpr h))
      have e := cross_sub_cross (vertex pts (cyclicPred pts.length 0)) (vertex pts 0)
        (vertex pts k) p
      have := hc' k hk
      linarith
  · have hin' := edges_by_predecessor pts.length (vertex pts) (fun a b => cross a b p < 0) hin
    have hp : ∀ α β : K, (α ≠ 0 ∨ β ≠ 0) → ∃ i, i < pts.length ∧
        α * ((vertex pts i).x - p.x) + β * ((vertex pts i).y - p.y) < 0 := by
      intro α β h
      by_contra hc
      push_neg at hc
      exact no_half_plane_cw pts.length hn (vertex pts) p α β h hin' hc
    rcases hconv with hc | hc
    · exfalso
      have hc' : ∀ k, k < pts.length →
          0 ≤ cross (vertex pts (cyclicPred pts.length 0)) (vertex pts 0) (vertex pts k) :=
        fun k hk => edges_by_predecessor pts.length (vertex pts)
          (fun a b => 0 ≤ cross a b (vertex pts k)) (fun i hi => hc i k hi hk) 0 hn
      have h0 := hin' 0 hn
      obtain ⟨k, hk, hlt⟩ := hp (-((vertex pts 0).y - (vertex pts (cyclicPred pts.length 0)).y))
        ((vertex pts 0).x - (vertex pts (cyclicPred pts.length 0)).x)
        ((hedge0 (-1) (Or.inr rfl) (by simpa using h0)).imp (fun h => neg_ne_zero.mpr h) id)
      have e := cross_sub_cross (vertex pts (cyclicPred pts.length 0)) (vertex pts 0)
        (vertex pts k) p
      have := hc' k hk
      linarith
    · have hc' : ∀ i k, i < pts.length → k < pts.length →
          cross (vertex pts (cyclicPred pts.length i)) (vertex pts i) (vertex pts k) ≤ 0 :=
        fun i k hi hk => edges_by_predecessor pts.length (vertex pts)
          (fun a b => cross a b (vertex pts k) ≤ 0) (fun i hi => hc i k hi hk) i hi
      exact ⟨toggled_crossed_cw pts.length hn (vertex pts) p hin' hc' hinj, hp⟩

/-- C1: for a Polygon container whose points list in boundary order the vertices of a simple
convex polygon and whose bounding box is the box of its vertices, `within` is true at every
point strictly inside the polygon. -/
theorem within_polygon_convex_inside (sqrt : K → K) (sc : ShapeContainer K) (p : Point K)
    (htype : sc.type = ShapeType.ShapePolygon) (hpoly : SimpleConvexPolygon sc.points)
    (hbox : IsVertexBox sc.points sc.bounding_box) (hin : StrictlyInside sc.points p) :
    within sqrt sc p = true := by
  obtain ⟨htog, hp⟩ := convex_inside_crossings sc.points p hpoly hin
  obtain ⟨⟨-, hx1⟩, ⟨-, hy1⟩, ⟨-, hx2⟩, ⟨-, hy2⟩⟩ := hbox
  have hn : 0 < sc.points.length := by
    have := hpoly.1
    omega
  have b1 : sc.bounding_box.top_left.x ≤ p.x := by
    obtain ⟨i, hi, hlt⟩ := hp 1 0 (Or.inl one_ne_zero)
    have := hx1 ⟨vertex sc.points i, vertex_mem sc.points i hi, rfl⟩
    linarith
  have b2 : sc.bounding_box.top_left.y ≤ p.y := by
    obtain ⟨i, hi, hlt⟩ := hp 0 1 (Or.inr one_ne_zero)
    have := hy1 ⟨vertex sc.points i, vertex_mem sc.points i hi, rfl⟩
    linarith
  have b3 : sc.bounding_box.bottom_right.x ≥ p.x := by
    obtain ⟨i, hi, hlt⟩ := hp (-1) 0 (Or.inl (by norm_num))
    have := hx2 ⟨vertex sc.points i, vertex_mem sc.points i hi, rfl⟩
    linarith
  have b4 : sc.bounding_box.bottom_right.y ≥ p.y := by
    obtain ⟨i, hi, hlt⟩ := hp 0 (-1) (Or.inr (by norm_num))
    have := hy2 ⟨vertex sc.points i, vertex_mem sc.points i hi, rfl⟩
    linarith
  have hne : sc.points.isEmpty = false := by
    cases hpts : sc.points with
    | nil => rw [hpts] at hn; simp at hn
    | cons q rest => rfl
  simp only [within, htype, within_polygon, hne, b1, b2, b3, b4, decide_True, Bool.and_self,
    Bool.not_true, Bool.false_eq_true, if_false]
  rw [within_polygon_loop_eq]
  exact htog

/-- The square `[(0,0),(10,0),(10,10),(0,10)]` is a simple convex polygon, listed
counter-clockwise. -/
lemma square_is_convex : SimpleConvexPolygon square_polygon.points := by
  refine ⟨by simp [square_polygon], by simp [square_polygon], Or.inl ?_⟩
  intro i k hi hk
  have hi' : i < 4 := by simpa [square_polygon] using hi
  have hk' : k < 4 := by simpa [square_polygon] using hk
  interval_cases i <;> interval_cases k <;> norm_num [vertex, cross, square_polygon]

/-- The box `(0,0)-(10,10)` is the box of the vertices of the square. -/
lemma square_box : IsVertexBox square_polygon.points square_polygon.bounding_box := by
  refine ⟨⟨?_, ?_⟩, ⟨?_, ?_⟩, ⟨?_, ?_⟩, ⟨?_, ?_⟩⟩
  · exact ⟨⟨0, 0⟩, by simp [square_polygon], rfl⟩
  · rintro t ⟨q, hq, rfl⟩
    simp only [square_polygon, List.mem_cons, List.mem_singleton, List.not_mem_nil,
      or_false] at hq
    rcases hq with rfl | rfl | rfl | rfl <;> norm_num [square_polygon]
  · exact ⟨⟨0, 0⟩, by simp [square_polygon], rfl⟩
  · rintro t ⟨q, hq, rfl⟩
    simp only [square_polygon, List.mem_cons, List.mem_singleton, List.not_mem_nil,
      or_false] at hq
    rcases hq with rfl | rfl | rfl | rfl <;> norm_num [square_polygon]
  · exact ⟨⟨10, 10⟩, by simp [square_polygon], rfl⟩
  · rintro t ⟨q, hq, rfl⟩
    simp only [square_polygon, List.mem_cons, List.mem_singleton, List.not_mem_nil,
      or_false] at hq
    rcases hq with rfl | rfl | rfl | rfl <;> norm_num [square_polygon]
  · exact ⟨⟨10, 10⟩, by simp [square_polygon], rfl⟩
  · rintro t ⟨q, hq, rfl⟩
    simp only [square_polygon, List.mem_cons, List.mem_singleton, List.not_mem_nil,
      or_false] at hq
    rcases hq with rfl | rfl | rfl | rfl <;> norm_num [square_polygon]

/-- The point `(5,5)` is strictly inside the square. -/
lemma square_centre_inside : StrictlyInside square_polygon.points ⟨5, 5⟩ := by
  refine Or.inl ?_
  intro i hi
  have hi' : i < 4 := by simpa [square_polygon] using hi
  interval_cases i <;> norm_num [vertex, cross, square_polygon]

/-- C1, at the square `[(0,0),(10,0),(10,10),(0,10)]` and the point `(5,5)`. -/
theorem within_polygon_convex_inside_witness :
    square_polygon.type = ShapeType.ShapePolygon ∧
    SimpleConvexPolygon square_polygon.points ∧
    IsVertexBox square_polygon.points square_polygon.bounding_box ∧
    StrictlyInside square_polygon.points ⟨5, 5⟩ ∧
    within Rat.sqrt square_polygon ⟨5, 5⟩ = true :=
  ⟨rfl, square_is_convex, square_box, square_centre_inside,
    within_polygon_convex_inside Rat.sqrt square_polygon ⟨5, 5⟩ rfl square_is_convex square_box
      square_centre_inside⟩

/-- C2: a Polygon container contains no point that lies strictly outside its bounding box,
whatever its vertices are. -/
theorem within_polygon_outside_box (sqrt : K → K) (sc : ShapeContainer K) (p : Point K)
    (htype : sc.type = ShapeType.ShapePolygon)
    (hout : p.x < sc.bounding_box.top_left.x ∨ p.x > sc.bounding_box.bottom_right.x ∨
      p.y < sc.bounding_box.top_left.y ∨ p.y > sc.bounding_box.bottom_right.y) :
    within sqrt sc p = false := by
  have hbox : (decide (sc.bounding_box.top_left.x ≤ p.x) &&
      decide (sc.bounding_box.top_left.y ≤ p.y) &&
      decide (sc.bounding_box.bottom_right.x ≥ p.x) &&
      decide (sc.bounding_box.bottom_right.y ≥ p.y)) = false := by
    rcases hout with h | h | h | h
    · simp [not_le.mpr h]
    · simp [not_le.mpr h]
    · simp [not_le.mpr h]
    · simp [not_le.mpr h]
  simp only [within, htype, within_polygon, hbox]
  simp

/-- C2, at the square `[(0,0),(10,0),(10,10),(0,10)]` and the point `(15,15)`. -/
theorem within_polygon_outside_box_witness :
    square_polygon.type = ShapeType.ShapePolygon ∧
    ((15 : ℚ) < square_polygon.bounding_box.top_left.x ∨
      (15 : ℚ) > square_polygon.bounding_box.bottom_right.x ∨
      (15 : ℚ) < square_polygon.bounding_box.top_left.y ∨
      (15 : ℚ) > square_polygon.bounding_box.bottom_right.y) ∧
    within Rat.sqrt square_polygon ⟨15, 15⟩ = false :=
  ⟨rfl, Or.inr (Or.inl (by norm_num [square_polygon])),
    within_polygon_outside_box Rat.sqrt square_polygon ⟨15, 15⟩ rfl
      (Or.inr (Or.inl (by norm_num [square_polygon])))⟩

/-- C4: a LineString container contains `p` exactly when some segment between consecutive
points `q_i`, `q_(i+1)` is at distance at most 1.0 from `p`; with fewer than two points it
contains no point. -/
theorem within_linestring_iff (sqrt : K → K) (sc : ShapeContainer K) (p : Point K)
    (htype : sc.type = ShapeType.ShapeLineString) :
    (within sqrt sc p = true ↔
      ∃ (i : Nat) (a b : Point K), sc.points[i]? = some a ∧ sc.points[i + 1]? = some b ∧
        distance_to_segment sqrt a b p ≤ 1) ∧
    (sc.points.length < 2 → within sqrt sc p = false) := by
  have hiff : within sqrt sc p = true ↔
      ∃ (i : Nat) (a b : Point K), sc.points[i]? = some a ∧ sc.points[i + 1]? = some b ∧
        distance_to_segment sqrt a b p ≤ 1 := by
    simp only [within, htype]
    exact within_line_iff sqrt p sc.points
  refine ⟨hiff, fun hlen => ?_⟩
  rw [← Bool.not_eq_true, hiff]
  rintro ⟨i, a, b, -, hb, -⟩
  have hlt : i + 1 < sc.points.length := (List.getElem?_eq_some.mp hb).1
  omega

/-- C4, at the line `(0,0)-(10,0)-(10,10)` and the point `(5, 1/2)`. -/
theorem within_linestring_iff_witness :
    elbow_line.type = ShapeType.ShapeLineString ∧
    ((within Rat.sqrt elbow_line ⟨5, 1 / 2⟩ = true ↔
      ∃ (i : Nat) (a b : Point ℚ), elbow_line.points[i]? = some a ∧
        elbow_line.points[i + 1]? = some b ∧
        distance_to_segment Rat.sqrt a b ⟨5, 1 / 2⟩ ≤ 1) ∧
    (elbow_line.points.length < 2 → within Rat.sqrt elbow_line ⟨5, 1 / 2⟩ = false)) :=
  ⟨rfl, within_linestring_iff Rat.sqrt elbow_line ⟨5, 1 / 2⟩ rfl⟩

/-- C5: a non-empty LinearRing container answers as the LineString test does on its points
followed by a copy of the first one, so it contains `p` exactly when some segment from `q_i`
to `q_((i+1) mod n)`, the closing one included, is at distance at most 1.0 from `p`.  The
test is a function of the container: it works on a copy and changes nothing. -/
theorem within_linearring_closed (sqrt : K → K) (sc : ShapeContainer K) (p : Point K)
    (htype : sc.type = ShapeType.ShapeLinearRing) (hne : sc.points ≠ []) :
    within sqrt sc p =
      within sqrt { sc with type := ShapeType.ShapeLineString,
                            points := sc.points ++ sc.points.take 1 } p ∧
    (within sqrt sc p = true ↔
      ∃ (i : Nat) (a b : Point K), i < sc.points.length ∧ sc.points[i]? = some a ∧
        sc.points[(i + 1) % sc.points.length]? = some b ∧
        distance_to_segment sqrt a b p ≤ 1) := by
  obtain ⟨ty, pts, bb⟩ := sc
  simp only at htype hne ⊢
  subst htype
  cases pts with
  | nil => exact absurd rfl hne
  | cons q0 rest =>
    have hclosed : within sqrt ⟨ShapeType.ShapeLinearRing, q0 :: rest, bb⟩ p =
        within_line sqrt ((q0 :: rest) ++ [q0]) p := by
      simp [within, within_linearring]
    refine ⟨by rw [hclosed]; simp [within], ?_⟩
    rw [hclosed, within_line_iff]
    set pts := q0 :: rest with hpts
    have hn : pts.length = rest.length + 1 := by simp [hpts]
    have h0 : pts[0]? = some q0 := by simp [hpts]
    constructor
    · rintro ⟨i, a, b, ha, hb, hd⟩
      have hi1 : i + 1 < (pts ++ [q0]).length := (List.getElem?_eq_some.mp hb).1
      have hi : i < pts.length := by simp at hi1; omega
      refine ⟨i, a, b, hi, ?_, ?_, hd⟩
      · rwa [List.getElem?_append_left hi] at ha
      · by_cases hlast : i + 1 < pts.length
        · rw [Nat.mod_eq_of_lt hlast]
          rwa [List.getElem?_append_left hlast] at hb
        · have hi' : i + 1 = pts.length := by omega
          rw [hi', Nat.mod_self, h0]
          rw [hi', List.getElem?_append_right (le_refl _)] at hb
          simpa using hb
    · rintro ⟨i, a, b, hi, ha, hb, hd⟩
      refine ⟨i, a, b, ?_, ?_, hd⟩
      · rwa [List.getElem?_append_left hi]
      · by_cases hlast : i + 1 < pts.length
        · rw [Nat.mod_eq_of_lt hlast] at hb
          rwa [List.getElem?_append_left hlast]
        · have hi' : i + 1 = pts.length := by omega
          rw [hi', Nat.mod_self, h0] at hb
          rw [hi', List.getElem?_append_right (le_refl _)]
          simpa using hb

/-- C5, at the ring `(0,0), (10,0), (10,10)` and the point `(5, 5)` on its closing edge. -/
theorem within_linearring_closed_witness :
    triangle_ring.type = ShapeType.ShapeLinearRing ∧ triangle_ring.points ≠ [] ∧
    (within Rat.sqrt triangle_ring ⟨5, 5⟩ =
      within Rat.sqrt
        { triangle_ring with
          type := ShapeType.ShapeLineString,
          points := triangle_ring.points ++ triangle_ring.points.take 1 } ⟨5, 5⟩ ∧
    (within Rat.sqrt triangle_ring ⟨5, 5⟩ = true ↔
      ∃ (i : Nat) (a b : Point ℚ), i < triangle_ring.points.length ∧
        triangle_ring.points[i]? = some a ∧
        triangle_ring.points[(i + 1) % triangle_ring.points.length]? = some b ∧
        distance_to_segment Rat.sqrt a b ⟨5, 5⟩ ≤ 1)) :=
  ⟨rfl, by simp [triangle_ring],
    within_linearring_closed Rat.sqrt triangle_ring ⟨5, 5⟩ rfl (by simp [triangle_ring])⟩

/-- C6: a container without points contains no point, whatever its type and bounding box
are. -/
theorem within_empty_points (sqrt : K → K) (sc : ShapeContainer K) (p : Point K)
    (hempty : sc.points = []) : within sqrt sc p = false := by
  unfold within
  cases sc.type <;>
    simp [within_point, within_line, within_linearring, within_polygon, hempty]

/-- C6, at a Point container without points. -/
theorem within_empty_points_witness :
    empty_point.points = [] ∧ within Rat.sqrt empty_point ⟨3, 4⟩ = false :=
  ⟨rfl, within_empty_points Rat.sqrt empty_point ⟨3, 4⟩ rfl⟩

/-- The squared length of a segment that is not a single point is positive. -/
lemma segment_sq_length_pos (dx dy : ℝ) (h : ¬ (dx = 0 ∧ dy = 0)) : 0 < dx ^ 2 + dy ^ 2 := by
  rcases not_and_or.mp h with h | h
  · have := pow_pos (abs_pos.mpr h) 2
    rw [sq_abs] at this
    positivity
  · have := pow_pos (abs_pos.mpr h) 2
    rw [sq_abs] at this
    positivity

/-- C3: over the reals, `distance_to_segment (start, stop, p)` is the least Euclidean
distance from `p` to a point `start + s (stop - start)` with `0 ≤ s ≤ 1`, also when
`start = stop`; and `distance_to_segment (s, s, p)` is the Euclidean distance from `p` to
`s`. -/
theorem distance_to_segment_is_least (start stop p : Point ℝ) :
    IsLeast {d | ∃ s : ℝ, 0 ≤ s ∧ s ≤ 1 ∧
        d = euclidean_distance Real.sqrt p (segment_point start stop s)}
      (distance_to_segment Real.sqrt start stop p) ∧
    distance_to_segment Real.sqrt start start p = euclidean_distance Real.sqrt p start := by
  refine ⟨?_, by simp [distance_to_segment, euclidean_distance]⟩
  unfold distance_to_segment euclidean_distance segment_point
  simp only
  set dx := stop.x - start.x with hdx
  set dy := stop.y - start.y with hdy
  set N := (p.x - start.x) * dx + (p.y - start.y) * dy with hN
  set D := dx ^ 2 + dy ^ 2 with hD
  split_ifs with h0 h1 h2
  · obtain ⟨hx, hy⟩ := h0
    constructor
    · exact ⟨0, le_refl _, zero_le_one, by simp⟩
    · rintro d ⟨s, -, -, rfl⟩
      simp [hx, hy]
  · have hDpos : 0 < D := segment_sq_length_pos dx dy h0
    have hND : D < N := by
      have := (lt_div_iff₀ hDpos).mp h1
      linarith
    constructor
    · refine ⟨1, zero_le_one, le_refl _, ?_⟩
      congr 1
      simp only [hdx, hdy]
      ring
    · rintro d ⟨s, hs0, hs1, rfl⟩
      apply Real.sqrt_le_sqrt
      have key : (p.x - (start.x + s * dx)) ^ 2 + (p.y - (start.y + s * dy)) ^ 2
          - ((p.x - stop.x) ^ 2 + (p.y - stop.y) ^ 2) = (1 - s) * (2 * N - D * (s + 1)) := by
        simp only [hN, hD, hdx, hdy]
        ring
      have : 0 ≤ (1 - s) * (2 * N - D * (s + 1)) := by
        apply mul_nonneg (by linarith)
        nlinarith
      linarith
  · have hDpos : 0 < D := segment_sq_length_pos dx dy h0
    have hNneg : N < 0 := by
      have := (div_lt_iff₀ hDpos).mp h2
      linarith
    constructor
    · refine ⟨0, le_refl _, zero_le_one, ?_⟩
      congr 1
      ring
    · rintro d ⟨s, hs0, hs1, rfl⟩
      apply Real.sqrt_le_sqrt
      have key : (p.x - (start.x + s * dx)) ^ 2 + (p.y - (start.y + s * dy)) ^ 2
          - ((p.x - start.x) ^ 2 + (p.y - start.y) ^ 2) = s * (s * D - 2 * N) := by
        simp only [hN, hD]
        ring
      have : 0 ≤ s * (s * D - 2 * N) := by
        apply mul_nonneg hs0
        nlinarith
      linarith
  · have hDpos : 0 < D := segment_sq_length_pos dx dy h0
    constructor
    · exact ⟨N / D, not_lt.mp h2, not_lt.mp h1, rfl⟩
    · rintro d ⟨s, hs0, hs1, rfl⟩
      apply Real.sqrt_le_sqrt
      have hNt : N = (N / D) * D := by field_simp
      have key : (p.x - (start.x + s * dx)) ^ 2 + (p.y - (start.y + s * dy)) ^ 2
          - ((p.x - (start.x + N / D * dx)) ^ 2 + (p.y - (start.y + N / D * dy)) ^ 2)
          = D * (s - N / D) ^ 2 + 2 * (N / D - s) * (N - (N / D) * D) := by
        simp only [hN, hD]
        ring
      have : 0 ≤ D * (s - N / D) ^ 2 := by positivity
      rw [← hNt, sub_self, mul_zero, add_zero] at key
      linarith

end ContainmentTheorems

section EnvelopeTheorems

variable {K : Type} [LinearOrderedField K] {G : Type}

lemma MIN_eq_min (a b : K) : MIN a b = min a b := by
  unfold MIN
  split_ifs with h
  · exact (min_eq_left h.le).symm
  · exact (min_eq_right (not_lt.mp h)).symm

lemma MAX_eq_max (a b : K) : MAX a b = max a b := by
  unfold MAX
  split_ifs with h
  · exact (max_eq_left h.le).symm
  · exact (max_eq_right (not_lt.mp h)).symm

/-- C8: extending an envelope with itself changes none of `top_left`, `bottom_right` and
`converted`.  Each assignment of `extend_env` reads and writes one coordinate only, so the
two arguments being the same object makes no difference. -/
theorem extend_env_self (env : Envelope K) :
    extend_env env env = env ∧
    (extend_env env env).top_left = env.top_left ∧
    (extend_env env env).bottom_right = env.bottom_right ∧
    (extend_env env env).converted = env.converted := by
  have h : extend_env env env = env := by
    simp [extend_env, MIN_eq_min, MAX_eq_max]
  rw [h]
  exact ⟨rfl, rfl, rfl, rfl⟩

lemma extend_env_components (env env2 : Envelope K) :
    (extend_env env env2).top_left.x = min env.top_left.x env2.top_left.x ∧
    (extend_env env env2).top_left.y = max env.top_left.y env2.top_left.y ∧
    (extend_env env env2).bottom_right.x = max env.bottom_right.x env2.bottom_right.x ∧
    (extend_env env env2).bottom_right.y = min env.bottom_right.y env2.bottom_right.y := by
  simp [extend_env, MIN_eq_min, MAX_eq_max]

/-- A running minimum keeps bounding what it bounded, bounds the new value, and is the
sentinel or one of the values. -/
lemma min_step {α : Type} (s m v : K) (old : List α) (g : α → K) (a : α) (hg : g a = v)
    (hle : ∀ f ∈ old, m ≤ g f) (hat : m = s ∨ ∃ f ∈ old, m = g f) :
    (∀ f ∈ old ++ [a], min m v ≤ g f) ∧ (min m v = s ∨ ∃ f ∈ old ++ [a], min m v = g f) := by
  constructor
  · intro f hf
    rcases List.mem_append.mp hf with h | h
    · exact le_trans (min_le_left _ _) (hle f h)
    · rw [List.mem_singleton.mp h, hg]
      exact min_le_right _ _
  · rcases le_total m v with h | h
    · rw [min_eq_left h]
      rcases hat with h1 | ⟨f, hf, h1⟩
      · exact Or.inl h1
      · exact Or.inr ⟨f, List.mem_append_left _ hf, h1⟩
    · rw [min_eq_right h]
      exact Or.inr ⟨a, List.mem_append_right _ (List.mem_singleton_self a), hg.symm⟩

/-- A running maximum keeps bounding what it bounded, bounds the new value, and is the
sentinel or one of the values. -/
lemma max_step {α : Type} (s m v : K) (old : List α) (g : α → K) (a : α) (hg : g a = v)
    (hle : ∀ f ∈ old, g f ≤ m) (hat : m = s ∨ ∃ f ∈ old, m = g f) :
    (∀ f ∈ old ++ [a], g f ≤ max m v) ∧ (max m v = s ∨ ∃ f ∈ old ++ [a], max m v = g f) := by
  constructor
  · intro f hf
    rcases List.mem_append.mp hf with h | h
    · exact le_trans (hle f h) (le_max_left _ _)
    · rw [List.mem_singleton.mp h, hg]
      exact le_max_right _ _
  · rcases le_total v m with h | h
    · rw [max_eq_left h]
      rcases hat with h1 | ⟨f, hf, h1⟩
      · exact Or.inl h1
      · exact Or.inr ⟨f, List.mem_append_left _ hf, h1⟩
    · rw [max_eq_right h]
      exact Or.inr ⟨a, List.mem_append_right _ (List.mem_singleton_self a), hg.symm⟩

/-- The new layer has no feature and the sentinel envelope. -/
lemma envelopeCovers_new (eng : GeometryEngine K G) (layer_id : Int) (progress0 : K) :
    EnvelopeCovers eng (Layer.new layer_id progress0 : Layer K G) := by
  simp [EnvelopeCovers, Layer.new]

/-- The method `add_feature` keeps `EnvelopeCovers`. -/
lemma envelopeCovers_add_feature (eng : GeometryEngine K G) (layer : Layer K G) (row_id : Int)
    (geom_data : String) (wkt : Bool) (h : EnvelopeCovers eng layer) :
    EnvelopeCovers eng (layer.add_feature eng row_id geom_data wkt) := by
  obtain ⟨⟨a1, a2⟩, ⟨b1, b2⟩, ⟨c1, c2⟩, ⟨d1, d2⟩⟩ := h
  obtain ⟨e1, e2, e3, e4⟩ := extend_env_components layer._spatial_envelope
    ((Feature.new eng row_id geom_data wkt : Feature K G).envelope eng)
  simp only [EnvelopeCovers, Layer.add_feature]
  change (_ ∧ _) ∧ (_ ∧ _) ∧ (_ ∧ _) ∧ (_ ∧ _)
  rw [show Feature.get_envelope eng (Feature.new eng row_id geom_data wkt : Feature K G)
    Envelope.new = (Feature.new eng row_id geom_data wkt : Feature K G).envelope eng from rfl]
  refine ⟨?_, ?_, ?_, ?_⟩
  · have := min_step (180 : K) _ _ layer._features (fun f => (f.envelope eng).top_left.x)
      (Feature.new eng row_id geom_data wkt) rfl a1 a2
    rw [e1]
    exact this
  · have := max_step (-90 : K) _ _ layer._features (fun f => (f.envelope eng).top_left.y)
      (Feature.new eng row_id geom_data wkt) rfl b1 b2
    rw [e2]
    exact this
  · have := max_step (-180 : K) _ _ layer._features (fun f => (f.envelope eng).bottom_right.x)
      (Feature.new eng row_id geom_data wkt) rfl c1 c2
    rw [e3]
    exact this
  · have := min_step (90 : K) _ _ layer._features (fun f => (f.envelope eng).bottom_right.y)
      (Feature.new eng row_id geom_data wkt) rfl d1 d2
    rw [e4]
    exact this

lemma envelopeCovers_foldl (eng : GeometryEngine K G) (calls : List (Int × String × Bool)) :
    ∀ layer : Layer K G, EnvelopeCovers eng layer →
      EnvelopeCovers eng
        (calls.foldl (fun layer c => layer.add_feature eng c.1 c.2.1 c.2.2) layer) := by
  induction calls with
  | nil => intro layer h; exact h
  | cons c cs ih =>
    intro layer h
    exact ih _ (envelopeCovers_add_feature eng layer c.1 c.2.1 c.2.2 h)

lemma features_foldl (eng : GeometryEngine K G) (calls : List (Int × String × Bool)) :
    ∀ layer : Layer K G,
      (calls.foldl (fun layer c => layer.add_feature eng c.1 c.2.1 c.2.2) layer)._features =
        layer._features ++ calls.map (fun c => Feature.new eng c.1 c.2.1 c.2.2) := by
  induction calls with
  | nil => intro layer; simp
  | cons c cs ih =>
    intro layer
    rw [List.foldl_cons, ih]
    simp [Layer.add_feature]

/-- The features of a built layer are those of the calls, in the order of the calls. -/
lemma build_features (eng : GeometryEngine K G) (layer_id : Int) (progress0 : K)
    (calls : List (Int × String × Bool)) :
    (Layer.build eng layer_id progress0 calls)._features =
      calls.map (fun c => Feature.new eng c.1 c.2.1 c.2.2) := by
  unfold Layer.build
  rw [features_foldl]
  simp [Layer.new]

/-- A bound that is the sentinel or attained is attained, when some value exists and every
value is on the inner side of the sentinel. -/
lemma attained_of_sentinel {α : Type} (s m : K) (l : List α) (g : α → K) (hl : l ≠ [])
    (hle : ∀ f ∈ l, m ≤ g f) (hs : ∀ f ∈ l, g f ≤ s) (hat : m = s ∨ ∃ f ∈ l, m = g f) :
    ∃ f ∈ l, m = g f := by
  rcases hat with h | h
  · obtain ⟨f, hf⟩ := List.exists_mem_of_ne_nil l hl
    exact ⟨f, hf, le_antisymm (hle f hf) (h ▸ hs f hf)⟩
  · exact h

/-- C7: after at least one `add_feature` on a new layer, with every feature envelope inside
the geodetic range, `get_envelope` returns the union of the feature envelopes: the least
`top_left.x`, the greatest `top_left.y`, the greatest `bottom_right.x` and the least
`bottom_right.y`. -/
theorem layer_envelope_is_union (eng : GeometryEngine K G) (layer_id : Int) (progress0 : K)
    (calls : List (Int × String × Bool)) (hcalls : calls ≠ [])
    (hrange : ∀ f ∈ (Layer.build eng layer_id progress0 calls)._features,
      InGeodeticRange (f.envelope eng)) :
    (Layer.build eng layer_id progress0 calls)._features =
      calls.map (fun c => Feature.new eng c.1 c.2.1 c.2.2) ∧
    IsLeast {v | ∃ f ∈ (Layer.build eng layer_id progress0 calls)._features,
        v = (f.envelope eng).top_left.x}
      (Layer.build eng layer_id progress0 calls).get_envelope.top_left.x ∧
    IsGreatest {v | ∃ f ∈ (Layer.build eng layer_id progress0 calls)._features,
        v = (f.envelope eng).top_left.y}
      (Layer.build eng layer_id progress0 calls).get_envelope.top_left.y ∧
    IsGreatest {v | ∃ f ∈ (Layer.build eng layer_id progress0 calls)._features,
        v = (f.envelope eng).bottom_right.x}
      (Layer.build eng layer_id progress0 calls).get_envelope.bottom_right.x ∧
    IsLeast {v | ∃ f ∈ (Layer.build eng layer_id progress0 calls)._features,
        v = (f.envelope eng).bottom_right.y}
      (Layer.build eng layer_id progress0 calls).get_envelope.bottom_right.y := by
  have hfeat := build_features eng layer_id progress0 calls
  have hcov : EnvelopeCovers eng (Layer.build eng layer_id progress0 calls) :=
    envelopeCovers_foldl eng calls _ (envelopeCovers_new eng layer_id progress0)
  have hne : (Layer.build eng layer_id progress0 calls)._features ≠ [] := by
    rw [hfeat]
    simpa using hcalls
  generalize Layer.build eng layer_id progress0 calls = layer at hrange hfeat hcov hne ⊢
  obtain ⟨⟨a1, a2⟩, ⟨b1, b2⟩, ⟨c1, c2⟩, ⟨d1, d2⟩⟩ := hcov
  refine ⟨hfeat, ⟨?_, ?_⟩, ⟨?_, ?_⟩, ⟨?_, ?_⟩, ⟨?_, ?_⟩⟩
  · obtain ⟨f, hf, h⟩ := attained_of_sentinel (180 : K) _ layer._features
      (fun f => (f.envelope eng).top_left.x) hne
      a1 (fun f hf => (hrange f hf).1.2) a2
    exact ⟨f, hf, h⟩
  · rintro v ⟨f, hf, rfl⟩
    exact a1 f hf
  · have hb1 : ∀ f ∈ layer._features,
        -layer._spatial_envelope.top_left.y ≤ -(f.envelope eng).top_left.y :=
      fun f hf => neg_le_neg (b1 f hf)
    obtain ⟨f, hf, h⟩ := attained_of_sentinel (-(-90) : K) _ layer._features
      (fun f => -(f.envelope eng).top_left.y) hne
      hb1
      (fun f hf => neg_le_neg (hrange f hf).2.1.1)
      (b2.imp (fun h => by rw [h]) (fun ⟨f, hf, h⟩ => ⟨f, hf, by rw [h]⟩))
    exact ⟨f, hf, neg_injective h⟩
  · rintro v ⟨f, hf, rfl⟩
    exact b1 f hf
  · have hc1 : ∀ f ∈ layer._features,
        -layer._spatial_envelope.bottom_right.x ≤ -(f.envelope eng).bottom_right.x :=
      fun f hf => neg_le_neg (c1 f hf)
    obtain ⟨f, hf, h⟩ := attained_of_sentinel (-(-180) : K) _ layer._features
      (fun f => -(f.envelope eng).bottom_right.x) hne
      hc1
      (fun f hf => neg_le_neg (hrange f hf).2.2.1.1)
      (c2.imp (fun h => by rw [h]) (fun ⟨f, hf, h⟩ => ⟨f, hf, by rw [h]⟩))
    exact ⟨f, hf, neg_injective h⟩
  · rintro v ⟨f, hf, rfl⟩
    exact c1 f hf
  · obtain ⟨f, hf, h⟩ := attained_of_sentinel (90 : K) _ layer._features
      (fun f => (f.envelope eng).bottom_right.y) hne
      d1 (fun f hf => (hrange f hf).2.2.2.2) d2
    exact ⟨f, hf, h⟩
  · rintro v ⟨f, hf, rfl⟩
    exact d1 f hf

/-- C7, at a layer with a point at `(1, 2)` and a line from `(-4, 0)` to `(2, 1)`. -/
theorem layer_envelope_is_union_witness :
    two_calls ≠ [] ∧
    (∀ f ∈ (Layer.build table_engine 7 0 two_calls)._features,
      InGeodeticRange (f.envelope table_engine)) ∧
    ((Layer.build table_engine 7 0 two_calls)._features =
      two_calls.map (fun c => Feature.new table_engine c.1 c.2.1 c.2.2) ∧
    IsLeast {v | ∃ f ∈ (Layer.build table_engine 7 0 two_calls)._features,
        v = (f.envelope table_engine).top_left.x}
      (Layer.build table_engine 7 0 two_calls).get_envelope.top_left.x ∧
    IsGreatest {v | ∃ f ∈ (Layer.build table_engine 7 0 two_calls)._features,
        v = (f.envelope table_engine).top_left.y}
      (Layer.build table_engine 7 0 two_calls).get_envelope.top_left.y ∧
    IsGreatest {v | ∃ f ∈ (Layer.build table_engine 7 0 two_calls)._features,
        v = (f.envelope table_engine).bottom_right.x}
      (Layer.build table_engine 7 0 two_calls).get_envelope.bottom_right.x ∧
    IsLeast {v | ∃ f ∈ (Layer.build table_engine 7 0 two_calls)._features,
        v = (f.envelope table_engine).bottom_right.y}
      (Layer.build table_engine 7 0 two_calls).get_envelope.bottom_right.y) := by
  have hne : two_calls ≠ [] := by simp [two_calls]
  have hrange : ∀ f ∈ (Layer.build table_engine 7 0 two_calls)._features,
      InGeodeticRange (f.envelope table_engine) := by
    rw [build_features]
    intro f hf
    simp only [two_calls, List.map_cons, List.map_nil, List.mem_cons, List.mem_singleton,
      List.not_mem_nil, or_false] at hf
    have hs : ¬ ("LINESTRING(-4 0,2 1)" = "POINT(1 2)") := by decide
    rcases hf with rfl | rfl <;>
      norm_num [InGeodeticRange, Feature.envelope, Feature.get_envelope, Feature.new,
        Importer.get_envelope, Importer.import_from_wkt, Importer.new, table_engine,
        Envelope.new, hs]
  exact ⟨hne, hrange, layer_envelope_is_union table_engine 7 0 two_calls hne hrange⟩

end EnvelopeTheorems

section ConverterTheorems

variable {K : Type} [LinearOrderedField K] [FloorRing K]

lemma double_to_int_intCast (n : Int) : double_to_int (n : K) = n := by
  unfold double_to_int
  split_ifs <;> simp

/-- The coefficients of `shifted_converter`, read off its two arrays. -/
lemma shifted_converter_coefficients :
    (shifted_converter._adf_projection 0 = 0 ∧ shifted_converter._adf_projection 1 = 1 ∧
      shifted_converter._adf_projection 2 = 0 ∧ shifted_converter._adf_projection 3 = 100 ∧
      shifted_converter._adf_projection 4 = 0 ∧ shifted_converter._adf_projection 5 = -1) ∧
    (shifted_converter._inv_projection 0 = 0 ∧ shifted_converter._inv_projection 1 = 1 ∧
      shifted_converter._inv_projection 2 = 0 ∧ shifted_converter._inv_projection 3 = 100 ∧
      shifted_converter._inv_projection 4 = 0 ∧ shifted_converter._inv_projection 5 = -1) :=
  ⟨⟨rfl, rfl, rfl, rfl, rfl, rfl⟩, ⟨rfl, rfl, rfl, rfl, rfl, rfl⟩⟩

/-- C10, as stated, fails: with `c = (0, 1, 0, 100, 0, -1)` and the pixel `(2, 3)` the
`lat` that `to_projected` returns is `97`, not `c0 + 2 c1 + 3 c2 = 2`. -/
theorem to_projected_lat_is_not_c0_c1_c2 :
    (shifted_converter.to_projected 2 3).1 = 97 ∧
    shifted_converter._adf_projection 0 + ((2 : Int) : ℚ) * shifted_converter._adf_projection 1
      + ((3 : Int) : ℚ) * shifted_converter._adf_projection 2 = 2 ∧
    (shifted_converter.to_projected 2 3).1 ≠
      shifted_converter._adf_projection 0
        + ((2 : Int) : ℚ) * shifted_converter._adf_projection 1
        + ((3 : Int) : ℚ) * shifted_converter._adf_projection 2 := by
  obtain ⟨⟨h0, h1, h2, h3, h4, h5⟩, -⟩ := shifted_converter_coefficients
  simp only [Converter.to_projected, h0, h1, h2, h3, h4, h5]
  norm_num

/-- C10, amended: `to_projected (x, y)` returns `lat = c3 + x c4 + y c5` and
`lon = c0 + x c1 + y c2`. -/
theorem to_projected_formula {K : Type} [LinearOrderedField K] (cv : Converter K)
    (x y : Int) :
    (cv.to_projected x y).1 =
      cv._adf_projection 3 + (x : K) * cv._adf_projection 4 + (y : K) * cv._adf_projection 5 ∧
    (cv.to_projected x y).2 =
      cv._adf_projection 0 + (x : K) * cv._adf_projection 1 + (y : K) * cv._adf_projection 2 :=
  ⟨rfl, rfl⟩

/-- With `c2 = c4 = 0` and non-zero `c1`, `c5`, an exact inverse undoes each axis on its
own: `inv0 + inv1 (c0 + P c1) = P` and `inv3 + inv5 (c3 + L c5) = L`. -/
lemma exact_inverse_axes {K : Type} [LinearOrderedField K] (c inv : Fin 6 → K)
    (hc2 : c 2 = 0) (hc4 : c 4 = 0) (hc1 : c 1 ≠ 0) (hc5 : c 5 ≠ 0)
    (hinv : IsExactInverse c inv) (P L : K) :
    inv 0 + inv 1 * (c 0 + P * c 1) = P ∧ inv 3 + inv 5 * (c 3 + L * c 5) = L := by
  have h00 := hinv 0 0
  have h01 := hinv 0 1
  have h10 := hinv 1 0
  have hPL := hinv P L
  simp only [hc2, hc4, mul_zero, zero_mul, add_zero, one_mul] at h00 h01 h10 hPL
  have hinv2 : inv 2 = 0 := by
    have h : c 5 * inv 2 = 0 := by linear_combination h01.1 - h00.1
    rcases mul_eq_zero.mp h with h | h
    · exact absurd h hc5
    · exact h
  have hinv4 : inv 4 = 0 := by
    have h : c 1 * inv 4 = 0 := by linear_combination h10.2 - h00.2
    rcases mul_eq_zero.mp h with h | h
    · exact absurd h hc1
    · exact h
  constructor
  · linear_combination hPL.1 - (c 3 + L * c 5) * hinv2
  · linear_combination hPL.2 - (c 0 + P * c 1) * hinv4

/-- The converter `shifted_converter` meets the conditions of the round trip: `c2 = c4 = 0`,
non-zero `c1` and `c5`, and an exact inverse. -/
lemma shifted_converter_invertible :
    shifted_converter._adf_projection 2 = 0 ∧ shifted_converter._adf_projection 4 = 0 ∧
    shifted_converter._adf_projection 1 ≠ 0 ∧ shifted_converter._adf_projection 5 ≠ 0 ∧
    IsExactInverse shifted_converter._adf_projection shifted_converter._inv_projection := by
  obtain ⟨⟨h0, h1, h2, h3, h4, h5⟩, ⟨i0, i1, i2, i3, i4, i5⟩⟩ := shifted_converter_coefficients
  refine ⟨h2, h4, by rw [h1]; norm_num, by rw [h5]; norm_num, ?_⟩
  intro P L
  simp only [h0, h1, h2, h3, h4, h5, i0, i1, i2, i3, i4, i5]
  constructor <;> ring

/-- C9, as stated, fails: `shifted_converter` has `c2 = c4 = 0`, non-zero `c1` and `c5` and
an exact inverse, the pixel `(0, 0)` goes to `(lat, lon) = (100, 0)`, and
`from_projected (lat, lon)` in that order returns `(100, 100)`. -/
theorem round_trip_in_same_order_fails :
    shifted_converter._adf_projection 2 = 0 ∧ shifted_converter._adf_projection 4 = 0 ∧
    shifted_converter._adf_projection 1 ≠ 0 ∧ shifted_converter._adf_projection 5 ≠ 0 ∧
    IsExactInverse shifted_converter._adf_projection shifted_converter._inv_projection ∧
    shifted_converter.from_projected (shifted_converter.to_projected 0 0).1
      (shifted_converter.to_projected 0 0).2 = (100, 100) ∧
    ¬ (|(shifted_converter.from_projected (shifted_converter.to_projected 0 0).1
          (shifted_converter.to_projected 0 0).2).1 - 0| ≤ 1 ∧
       |(shifted_converter.from_projected (shifted_converter.to_projected 0 0).1
          (shifted_converter.to_projected 0 0).2).2 - 0| ≤ 1) := by
  obtain ⟨⟨h0, h1, h2, h3, h4, h5⟩, ⟨i0, i1, i2, i3, i4, i5⟩⟩ := shifted_converter_coefficients
  have hrt : shifted_converter.from_projected (shifted_converter.to_projected 0 0).1
      (shifted_converter.to_projected 0 0).2 = (100, 100) := by
    simp only [Converter.from_projected, Converter.to_projected, h0, h1, h2, h3, h4, h5, i0, i1,
      i3, i5]
    have e1 : ((0 : ℚ) + 1 * (100 + ((0 : Int) : ℚ) * 0 + ((0 : Int) : ℚ) * -1))
        = ((100 : Int) : ℚ) := by norm_num
    have e2 : ((100 : ℚ) + -1 * (0 + ((0 : Int) : ℚ) * 1 + ((0 : Int) : ℚ) * 0))
        = ((100 : Int) : ℚ) := by norm_num
    rw [e1, e2, double_to_int_intCast]
  obtain ⟨g2, g4, g1, g5, ginv⟩ := shifted_converter_invertible
  refine ⟨g2, g4, g1, g5, ginv, hrt, ?_⟩
  rw [hrt]
  norm_num

/-- C9, amended: with `c2 = c4 = 0`, non-zero `c1`, `c5` and an exact inverse, passing the
two outputs of `to_projected (x, y)` to `from_projected` swapped, `lon` first, as
`to_latlon` and `from_latlon` do, returns a pixel within 1 of `(x, y)` on each axis. -/
theorem round_trip_swapped_within_one (cv : Converter K)
    (hc2 : cv._adf_projection 2 = 0) (hc4 : cv._adf_projection 4 = 0)
    (hc1 : cv._adf_projection 1 ≠ 0) (hc5 : cv._adf_projection 5 ≠ 0)
    (hinv : IsExactInverse cv._adf_projection cv._inv_projection) (x y : Int) :
    |(cv.from_projected (cv.to_projected x y).2 (cv.to_projected x y).1).1 - x| ≤ 1 ∧
    |(cv.from_projected (cv.to_projected x y).2 (cv.to_projected x y).1).2 - y| ≤ 1 := by
  obtain ⟨hx, hy⟩ := exact_inverse_axes cv._adf_projection cv._inv_projection hc2 hc4 hc1 hc5
    hinv (x : K) (y : K)
  have e1 : cv._inv_projection 0 + cv._inv_projection 1 * (cv.to_projected x y).2 = (x : K) := by
    simp only [Converter.to_projected, hc2, mul_zero, add_zero]
    exact hx
  have e2 : cv._inv_projection 3 + cv._inv_projection 5 * (cv.to_projected x y).1 = (y : K) := by
    simp only [Converter.to_projected, hc4, mul_zero, add_zero]
    exact hy
  simp only [Converter.from_projected, e1, e2, double_to_int_intCast, sub_self, abs_zero]
  exact ⟨zero_le_one, zero_le_one⟩

/-- C9 amended, at `shifted_converter` and the pixel `(2, 3)`. -/
theorem round_trip_swapped_within_one_witness :
    shifted_converter._adf_projection 2 = 0 ∧ shifted_converter._adf_projection 4 = 0 ∧
    shifted_converter._adf_projection 1 ≠ 0 ∧ shifted_converter._adf_projection 5 ≠ 0 ∧
    IsExactInverse shifted_converter._adf_projection shifted_converter._inv_projection ∧
    |(shifted_converter.from_projected (shifted_converter.to_projected 2 3).2
        (shifted_converter.to_projected 2 3).1).1 - 2| ≤ 1 ∧
    |(shifted_converter.from_projected (shifted_converter.to_projected 2 3).2
        (shifted_converter.to_projected 2 3).1).2 - 3| ≤ 1 :=
  ⟨shifted_converter_invertible.1, shifted_converter_invertible.2.1,
    shifted_converter_invertible.2.2.1, shifted_converter_invertible.2.2.2.1,
    shifted_converter_invertible.2.2.2.2,
    round_trip_swapped_within_one shifted_converter shifted_converter_invertible.1
      shifted_converter_invertible.2.1 shifted_converter_invertible.2.2.1
      shifted_converter_invertible.2.2.2.1 shifted_converter_invertible.2.2.2.2 2 3⟩

end ConverterTheorems

section ConverterStateTheorems

variable {K : Type} [LinearOrderedField K]

/-- C19: `is_init` is true exactly when none of the four coordinates equals its sentinel,
so it is false as soon as one coordinate is at its sentinel, and false for the
default-constructed envelope. -/
theorem is_init_iff_no_sentinel (env : Envelope K) :
    (env.is_init = true ↔
      env.top_left.x ≠ 180 ∧ env.top_left.y ≠ -90 ∧
        env.bottom_right.x ≠ -180 ∧ env.bottom_right.y ≠ 90) ∧
    (env.is_init = false ↔
      env.top_left.x = 180 ∨ env.top_left.y = -90 ∨
        env.bottom_right.x = -180 ∨ env.bottom_right.y = 90) ∧
    (Envelope.new : Envelope K).is_init = false := by
  have h1 : env.is_init = true ↔
      env.top_left.x ≠ 180 ∧ env.top_left.y ≠ -90 ∧
        env.bottom_right.x ≠ -180 ∧ env.bottom_right.y ≠ 90 := by
    simp [Envelope.is_init, and_assoc]
  refine ⟨h1, ?_, by simp [Envelope.is_init, Envelope.new]⟩
  rw [← Bool.not_eq_true, h1]
  constructor
  · intro h
    by_contra hc
    push_neg at hc
    exact h hc
  · rintro (h | h | h | h) ⟨g1, g2, g3, g4⟩
    · exact g1 h
    · exact g2 h
    · exact g3 h
    · exact g4 h

/-- C11: `change_projection` with a view equal to the stored one in all six fields, a source
CRS that is null or the stored one and a destination CRS that is null or the stored one
returns with the state as it was, whatever the library would build: view, CRS pointers,
transformations and both coefficient arrays are unchanged. -/
theorem change_projection_same_is_noop (eng : ProjectionEngine K) (cv : Converter K)
    (view : ProjectionView K) (src_srs dst_srs : Option Nat)
    (hview : view.MaxLat = cv._view.MaxLat ∧ view.MaxLon = cv._view.MaxLon ∧
      view.MinLat = cv._view.MinLat ∧ view.MinLon = cv._view.MinLon ∧
      view.height = cv._view.height ∧ view.width = cv._view.width)
    (hsrc : src_srs = none ∨ src_srs = cv._source_srs)
    (hdst : dst_srs = none ∨ dst_srs = cv._target_srs) :
    cv.change_projection eng view src_srs dst_srs = Except.ok cv := by
  obtain ⟨h1, h2, h3, h4, h5, h6⟩ := hview
  have hne : ProjectionView.ne view cv._view = false := by
    simp [ProjectionView.ne, ProjectionView.eq, h1, h2, h3, h4, h5, h6]
  have hs : ¬ (src_srs ≠ none ∧ src_srs ≠ cv._source_srs) := by
    rintro ⟨a, b⟩
    rcases hsrc with h | h
    · exact a h
    · exact b h
  have hd : ¬ (dst_srs ≠ none ∧ dst_srs ≠ cv._target_srs) := by
    rintro ⟨a, b⟩
    rcases hdst with h | h
    · exact a h
    · exact b h
  simp only [Converter.change_projection, hne, Bool.false_eq_true, if_false, hs, hd]
  rfl

/-- C11, at `shifted_converter`, its own view, a null source CRS and its own destination
CRS, with a library that would refuse to build a transformation. -/
theorem change_projection_same_is_noop_witness :
    (shifted_converter._view.MaxLat = shifted_converter._view.MaxLat ∧
      shifted_converter._view.MaxLon = shifted_converter._view.MaxLon ∧
      shifted_converter._view.MinLat = shifted_converter._view.MinLat ∧
      shifted_converter._view.MinLon = shifted_converter._view.MinLon ∧
      shifted_converter._view.height = shifted_converter._view.height ∧
      shifted_converter._view.width = shifted_converter._view.width) ∧
    ((none : Option Nat) = none ∨ (none : Option Nat) = shifted_converter._source_srs) ∧
    (some 54004 = (none : Option Nat) ∨ some 54004 = shifted_converter._target_srs) ∧
    shifted_converter.change_projection refusing_engine shifted_converter._view none
      (some 54004) = Except.ok shifted_converter :=
  ⟨⟨rfl, rfl, rfl, rfl, rfl, rfl⟩, Or.inl rfl, Or.inr rfl,
    change_projection_same_is_noop refusing_engine shifted_converter shifted_converter._view
      none (some 54004) ⟨rfl, rfl, rfl, rfl, rfl, rfl⟩ (Or.inl rfl) (Or.inr rfl)⟩

end ConverterStateTheorems

section LayerTheorems

variable {K : Type} [LinearOrderedField K]

/-- C18: on a layer without features `render` returns without error, gives the same layer
for every converter, and leaves the progress at 0, a value in `[0, 1]`: the step
`1 / feature count` is not added. -/
theorem render_empty_layer [FloorRing K] (eng : GeometryEngine K (OGRGeometry K))
    (layer : Layer K (OGRGeometry K)) (converter : Converter K)
    (hempty : layer._features = []) :
    layer.render eng converter = some { layer with _render_progress := 0 } ∧
    (∀ other : Converter K, layer.render eng other = layer.render eng converter) ∧
    (∀ rendered, layer.render eng converter = some rendered →
      rendered.query_render_progress = 0 ∧ 0 ≤ rendered.query_render_progress ∧
        rendered.query_render_progress ≤ 1) := by
  have h : ∀ c : Converter K,
      layer.render eng c = some { layer with _render_progress := 0 } := by
    intro c
    simp only [Layer.render, hempty, Layer.render_loop]
  refine ⟨h converter, fun other => by rw [h other, h converter], ?_⟩
  intro rendered hr
  rw [h converter] at hr
  cases hr
  simp [Layer.query_render_progress]

/-- C18, at a new layer. -/
theorem render_empty_layer_witness :
    empty_layer._features = [] ∧
    (empty_layer.render unit_engine shifted_converter =
      some { empty_layer with _render_progress := 0 } ∧
    (∀ other : Converter ℚ,
      empty_layer.render unit_engine other = empty_layer.render unit_engine shifted_converter) ∧
    (∀ rendered, empty_layer.render unit_engine shifted_converter = some rendered →
      rendered.query_render_progress = 0 ∧ 0 ≤ rendered.query_render_progress ∧
        rendered.query_render_progress ≤ 1)) :=
  ⟨rfl, render_empty_layer unit_engine empty_layer shifted_converter rfl⟩

/-- The loop of `feature_within`, interrupt flag clear: a returned feature is within and
comes after features that are not; nothing is returned exactly when no feature is within. -/
lemma feature_within_loop_first {G : Type} (sqrt : K → K) (p : Point K)
    (fs : List (Feature K G)) :
    (∀ f, Layer.feature_within_loop false sqrt p fs = some f →
      ∃ pre post, fs = pre ++ f :: post ∧ f.within false sqrt p = true ∧
        ∀ g ∈ pre, g.within false sqrt p = false) ∧
    (Layer.feature_within_loop false sqrt p fs = none ↔
      ∀ g ∈ fs, g.within false sqrt p = false) := by
  induction fs with
  | nil => simp [Layer.feature_within_loop]
  | cons f0 rest ih =>
    by_cases h : f0.within false sqrt p = true
    · simp only [Layer.feature_within_loop, Bool.false_eq_true, if_false, h, if_true]
      constructor
      · intro f hf
        cases hf
        exact ⟨[], rest, rfl, h, by simp⟩
      · simp [h]
    · simp only [Layer.feature_within_loop, Bool.false_eq_true, if_false, h]
      have h' : f0.within false sqrt p = false := by simpa using h
      constructor
      · intro f hf
        obtain ⟨pre, post, hfs, hw, hpre⟩ := ih.1 f hf
        refine ⟨f0 :: pre, post, by rw [hfs]; rfl, hw, ?_⟩
        intro g hg
        rcases List.mem_cons.mp hg with rfl | hg
        · exact h'
        · exact hpre g hg
      · rw [ih.2]
        simp [h']

/-- C12: with the interrupt flag of the layer clear, `feature_within (p)` returns the first
feature in insertion order whose `within (p)` is true, every feature before it having
`within (p)` false, and returns none exactly when no feature has `within (p)` true. -/
theorem feature_within_is_first {G : Type} (sqrt : K → K) (layer : Layer K G) (p : Point K)
    (hclear : layer._interrupt = false) :
    (∀ f, layer.feature_within sqrt p = some f →
      ∃ pre post, layer._features = pre ++ f :: post ∧
        f.within layer._interrupt sqrt p = true ∧
        ∀ g ∈ pre, g.within layer._interrupt sqrt p = false) ∧
    (layer.feature_within sqrt p = none ↔
      ∀ g ∈ layer._features, g.within layer._interrupt sqrt p = false) := by
  unfold Layer.feature_within
  rw [hclear]
  exact feature_within_loop_first sqrt p layer._features

/-- C12, at a layer with a line and a square, and the point `(5, 5)` of the square. -/
theorem feature_within_is_first_witness :
    two_feature_layer._interrupt = false ∧
    ((∀ f, two_feature_layer.feature_within Rat.sqrt ⟨5, 5⟩ = some f →
      ∃ pre post, two_feature_layer._features = pre ++ f :: post ∧
        f.within two_feature_layer._interrupt Rat.sqrt ⟨5, 5⟩ = true ∧
        ∀ g ∈ pre, g.within two_feature_layer._interrupt Rat.sqrt ⟨5, 5⟩ = false) ∧
    (two_feature_layer.feature_within Rat.sqrt ⟨5, 5⟩ = none ↔
      ∀ g ∈ two_feature_layer._features,
        g.within two_feature_layer._interrupt Rat.sqrt ⟨5, 5⟩ = false)) :=
  ⟨rfl, feature_within_is_first Rat.sqrt two_feature_layer ⟨5, 5⟩ rfl⟩

end LayerTheorems

section LayerEnvelopeTheorems

variable {K : Type} [LinearOrderedField K] {G : Type}

lemma withinSentinel_new (layer_id : Int) (progress0 : K) :
    EnvelopeWithinSentinel (Layer.new layer_id progress0 : Layer K G)._spatial_envelope := by
  simp [EnvelopeWithinSentinel, Layer.new]

/-- The method `add_feature` keeps `EnvelopeWithinSentinel`, whatever the feature is. -/
lemma withinSentinel_add_feature (eng : GeometryEngine K G) (layer : Layer K G) (row_id : Int)
    (geom_data : String) (wkt : Bool) (h : EnvelopeWithinSentinel layer._spatial_envelope) :
    EnvelopeWithinSentinel (layer.add_feature eng row_id geom_data wkt)._spatial_envelope := by
  obtain ⟨a, b, c, d⟩ := h
  obtain ⟨e1, e2, e3, e4⟩ := extend_env_components layer._spatial_envelope
    ((Feature.new eng row_id geom_data wkt : Feature K G).get_envelope eng Envelope.new)
  simp only [EnvelopeWithinSentinel, Layer.add_feature]
  rw [e1, e2, e3, e4]
  exact ⟨le_trans (min_le_left _ _) a, le_trans b (le_max_left _ _),
    le_trans c (le_max_left _ _), le_trans (min_le_left _ _) d⟩

lemma withinSentinel_foldl (eng : GeometryEngine K G) (calls : List (Int × String × Bool)) :
    ∀ layer : Layer K G, EnvelopeWithinSentinel layer._spatial_envelope →
      EnvelopeWithinSentinel
        (calls.foldl (fun layer c => layer.add_feature eng c.1 c.2.1 c.2.2)
          layer)._spatial_envelope := by
  induction calls with
  | nil => intro layer h; exact h
  | cons c cs ih =>
    intro layer h
    exact ih _ (withinSentinel_add_feature eng layer c.1 c.2.1 c.2.2 h)

/-- Extending an envelope that is within the sentinel by the sentinel envelope changes
nothing. -/
lemma extend_env_sentinel (env : Envelope K) (h : EnvelopeWithinSentinel env) :
    extend_env env Envelope.new = env := by
  obtain ⟨a, b, c, d⟩ := h
  obtain ⟨tl, br, conv⟩ := env
  obtain ⟨tlx, tly⟩ := tl
  obtain ⟨brx, bry⟩ := br
  simp only at a b c d
  simp [extend_env, MIN_eq_min, MAX_eq_max, Envelope.new, a, b, c, d]

/-- C20: on a layer built from a new layer by `add_feature` calls, `add_feature` with a
payload that does not parse (the geometry of the feature is null) leaves the aggregate
envelope as it was and appends the feature. -/
theorem add_feature_unparsed_keeps_envelope (eng : GeometryEngine K G) (layer_id : Int)
    (progress0 : K) (calls : List (Int × String × Bool)) (row_id : Int) (geom_data : String)
    (wkt : Bool)
    (hnull : (Feature.new eng row_id geom_data wkt : Feature K G)._geometry._geometry = none) :
    ((Layer.build eng layer_id progress0 calls).add_feature eng row_id geom_data
        wkt)._spatial_envelope = (Layer.build eng layer_id progress0 calls)._spatial_envelope ∧
    ((Layer.build eng layer_id progress0 calls).add_feature eng row_id geom_data
        wkt).get_envelope = (Layer.build eng layer_id progress0 calls).get_envelope ∧
    ((Layer.build eng layer_id progress0 calls).add_feature eng row_id geom_data
        wkt)._features =
      (Layer.build eng layer_id progress0 calls)._features ++
        [Feature.new eng row_id geom_data wkt] := by
  have hinv : EnvelopeWithinSentinel (Layer.build eng layer_id progress0 calls)._spatial_envelope :=
    withinSentinel_foldl eng calls _ (withinSentinel_new layer_id progress0)
  have henv : (Feature.new eng row_id geom_data wkt : Feature K G).get_envelope eng
      Envelope.new = Envelope.new := by
    simp only [Feature.get_envelope, Importer.get_envelope, hnull]
  have h1 : ((Layer.build eng layer_id progress0 calls).add_feature eng row_id geom_data
      wkt)._spatial_envelope = (Layer.build eng layer_id progress0 calls)._spatial_envelope := by
    simp only [Layer.add_feature, henv]
    exact extend_env_sentinel _ hinv
  exact ⟨h1, h1, rfl⟩

/-- C20, at the layer of `two_calls`, with a payload that `table_engine` does not parse. -/
theorem add_feature_unparsed_keeps_envelope_witness :
    (Feature.new table_engine 3 "POINT(" true :
      Feature ℚ (OGREnvelope ℚ))._geometry._geometry = none ∧
    (((Layer.build table_engine 7 0 two_calls).add_feature table_engine 3 "POINT("
        true)._spatial_envelope = (Layer.build table_engine 7 0 two_calls)._spatial_envelope ∧
    ((Layer.build table_engine 7 0 two_calls).add_feature table_engine 3 "POINT("
        true).get_envelope = (Layer.build table_engine 7 0 two_calls).get_envelope ∧
    ((Layer.build table_engine 7 0 two_calls).add_feature table_engine 3 "POINT("
        true)._features =
      (Layer.build table_engine 7 0 two_calls)._features ++
        [Feature.new table_engine 3 "POINT(" true]) := by
  have h1 : ¬ ("POINT(" = "POINT(1 2)") := by decide
  have h2 : ¬ ("POINT(" = "LINESTRING(-4 0,2 1)") := by decide
  have hnull : (Feature.new table_engine 3 "POINT(" true :
      Feature ℚ (OGREnvelope ℚ))._geometry._geometry = none := by
    simp [Feature.new, Importer.import_from_wkt, Importer.new, table_engine, h1, h2]
  exact ⟨hnull, add_feature_unparsed_keeps_envelope table_engine 7 0 two_calls 3 "POINT(" true
    hnull⟩

end LayerEnvelopeTheorems

section DecompositionTheorems

variable {K : Type} [LinearOrderedField K]

/-- With the interrupt flag clear the backwards loop pushes the first `n` vertices, last one
first. -/
lemma push_points_backwards_clear (l : List (Point K)) :
    ∀ (n : Nat) (points : List (Point K)), n ≤ l.length →
      push_points_backwards false l n points = points ++ (l.take n).reverse := by
  intro n
  induction n with
  | zero => intro points _; simp [push_points_backwards]
  | succ i ih =>
    intro points hi
    have hlt : i < l.length := by omega
    have htake : (l.take (i + 1)).reverse = l.get ⟨i, hlt⟩ :: (l.take i).reverse := by
      rw [List.take_succ, List.getElem?_eq_getElem hlt]
      simp
    simp only [push_points_backwards, Bool.false_eq_true, if_false]
    rw [ih _ (by omega), List.getD_eq_getElem _ _ hlt, htake]
    simp

lemma push_points_backwards_all (l : List (Point K)) :
    push_points_backwards false l l.length [] = l.reverse := by
  rw [push_points_backwards_clear l l.length [] (le_refl _)]
  simp

/-- C14: for a line string or a linear ring with vertices `v0 .. v(n-1)`, `get_points`
with the interrupt flag clear appends one container, with the points `v(n-1), .., v0` and
the box `top_left = (MinX, MaxY)`, `bottom_right = (MaxX, MinY)` of the native envelope. -/
theorem get_points_line_reversed (eng : GeometryEngine K (OGRGeometry K))
    (imp : Importer (OGRGeometry K)) (g : OGRGeometry K) (vertices : List (Point K))
    (shapes_container : List (ShapeContainer K)) (hclear : imp._interrupt = false)
    (hgeom : imp._geometry = some g)
    (hline : g = OGRGeometry.wkbLineString vertices ∨ g = OGRGeometry.wkbLinearRing vertices) :
    ∃ container : ShapeContainer K,
      imp.get_points eng shapes_container = shapes_container ++ [container] ∧
      container.points = vertices.reverse ∧
      container.bounding_box.top_left = ⟨(eng.getEnvelope g).MinX, (eng.getEnvelope g).MaxY⟩ ∧
      container.bounding_box.bottom_right =
        ⟨(eng.getEnvelope g).MaxX, (eng.getEnvelope g).MinY⟩ ∧
      ((g = OGRGeometry.wkbLineString vertices ∧ container.type = ShapeType.ShapeLineString) ∨
        (g = OGRGeometry.wkbLinearRing vertices ∧
          container.type = ShapeType.ShapeLinearRing)) := by
  rcases hline with rfl | rfl
  · refine ⟨{ type := ShapeType.ShapeLineString, points := vertices.reverse,
              bounding_box :=
                { (Envelope.new : Envelope K) with
                  top_left := ⟨(eng.getEnvelope (OGRGeometry.wkbLineString vertices)).MinX,
                    (eng.getEnvelope (OGRGeometry.wkbLineString vertices)).MaxY⟩,
                  bottom_right := ⟨(eng.getEnvelope (OGRGeometry.wkbLineString vertices)).MaxX,
                    (eng.getEnvelope (OGRGeometry.wkbLineString vertices)).MinY⟩ } },
      ?_, rfl, rfl, rfl, Or.inl ⟨rfl, rfl⟩⟩
    simp only [Importer.get_points, hgeom, Importer.extract_points,
      Importer.extract_line_string, hclear, push_points_backwards_all]
  · refine ⟨{ type := ShapeType.ShapeLinearRing, points := vertices.reverse,
              bounding_box :=
                { (Envelope.new : Envelope K) with
                  top_left := ⟨(eng.getEnvelope (OGRGeometry.wkbLinearRing vertices)).MinX,
                    (eng.getEnvelope (OGRGeometry.wkbLinearRing vertices)).MaxY⟩,
                  bottom_right := ⟨(eng.getEnvelope (OGRGeometry.wkbLinearRing vertices)).MaxX,
                    (eng.getEnvelope (OGRGeometry.wkbLinearRing vertices)).MinY⟩ } },
      ?_, rfl, rfl, rfl, Or.inr ⟨rfl, rfl⟩⟩
    simp only [Importer.get_points, hgeom, Importer.extract_points,
      Importer.extract_linear_ring, hclear, push_points_backwards_all]

/-- C14, at the line string `(0,0), (1,0), (1,1)`. -/
theorem get_points_line_reversed_witness :
    line_importer._interrupt = false ∧
    line_importer._geometry = some (OGRGeometry.wkbLineString [⟨0, 0⟩, ⟨1, 0⟩, ⟨1, 1⟩]) ∧
    ∃ container : ShapeContainer ℚ,
      line_importer.get_points unit_engine [] = [] ++ [container] ∧
      container.points = [(⟨0, 0⟩ : Point ℚ), ⟨1, 0⟩, ⟨1, 1⟩].reverse ∧
      container.bounding_box.top_left =
        ⟨(unit_engine.getEnvelope (OGRGeometry.wkbLineString [⟨0, 0⟩, ⟨1, 0⟩, ⟨1, 1⟩])).MinX,
          (unit_engine.getEnvelope (OGRGeometry.wkbLineString [⟨0, 0⟩, ⟨1, 0⟩, ⟨1, 1⟩])).MaxY⟩ ∧
      container.bounding_box.bottom_right =
        ⟨(unit_engine.getEnvelope (OGRGeometry.wkbLineString [⟨0, 0⟩, ⟨1, 0⟩, ⟨1, 1⟩])).MaxX,
          (unit_engine.getEnvelope (OGRGeometry.wkbLineString [⟨0, 0⟩, ⟨1, 0⟩, ⟨1, 1⟩])).MinY⟩ ∧
      ((OGRGeometry.wkbLineString [(⟨0, 0⟩ : Point ℚ), ⟨1, 0⟩, ⟨1, 1⟩] =
            OGRGeometry.wkbLineString [⟨0, 0⟩, ⟨1, 0⟩, ⟨1, 1⟩] ∧
          container.type = ShapeType.ShapeLineString) ∨
        (OGRGeometry.wkbLineString [(⟨0, 0⟩ : Point ℚ), ⟨1, 0⟩, ⟨1, 1⟩] =
            OGRGeometry.wkbLinearRing [⟨0, 0⟩, ⟨1, 0⟩, ⟨1, 1⟩] ∧
          container.type = ShapeType.ShapeLinearRing)) :=
  ⟨rfl, rfl, get_points_line_reversed unit_engine line_importer _ _ [] rfl rfl (Or.inl rfl)⟩

/-- C13: for a polygon with exactly one interior ring, `get_points` with the interrupt flag
clear appends exactly two containers: a Polygon with the vertices of the exterior ring, then
a LinearRing with the vertices of the interior ring, each in reverse index order. -/
theorem get_points_polygon_one_interior_ring (eng : GeometryEngine K (OGRGeometry K))
    (imp : Importer (OGRGeometry K)) (exterior interior : List (Point K))
    (shapes_container : List (ShapeContainer K)) (hclear : imp._interrupt = false)
    (hgeom : imp._geometry = some (OGRGeometry.wkbPolygon exterior [interior])) :
    ∃ outer inner : ShapeContainer K,
      imp.get_points eng shapes_container = shapes_container ++ [outer, inner] ∧
      outer.type = ShapeType.ShapePolygon ∧ outer.points = exterior.reverse ∧
      inner.type = ShapeType.ShapeLinearRing ∧ inner.points = interior.reverse := by
  refine ⟨{ type := ShapeType.ShapePolygon, points := exterior.reverse,
            bounding_box :=
              { (Envelope.new : Envelope K) with
                top_left := ⟨(eng.getEnvelope (OGRGeometry.wkbLinearRing exterior)).MinX,
                  (eng.getEnvelope (OGRGeometry.wkbLinearRing exterior)).MaxY⟩,
                bottom_right := ⟨(eng.getEnvelope (OGRGeometry.wkbLinearRing exterior)).MaxX,
                  (eng.getEnvelope (OGRGeometry.wkbLinearRing exterior)).MinY⟩ } },
    { type := ShapeType.ShapeLinearRing, points := interior.reverse,
      bounding_box :=
        { (Envelope.new : Envelope K) with
          top_left := ⟨(eng.getEnvelope (OGRGeometry.wkbLinearRing interior)).MinX,
            (eng.getEnvelope (OGRGeometry.wkbLinearRing interior)).MaxY⟩,
          bottom_right := ⟨(eng.getEnvelope (OGRGeometry.wkbLinearRing interior)).MaxX,
            (eng.getEnvelope (OGRGeometry.wkbLinearRing interior)).MinY⟩ } },
    ?_, rfl, rfl, rfl, rfl⟩
  simp only [Importer.get_points, hgeom, Importer.extract_points,
    Importer.extract_interior_rings, hclear, Bool.false_eq_true, if_false,
    Importer.extract_linear_ring, List.append_assoc, List.singleton_append,
    push_points_backwards_all]

/-- C13, at a square with a triangular hole. -/
theorem get_points_polygon_one_interior_ring_witness :
    holed_importer._interrupt = false ∧
    holed_importer._geometry = some (OGRGeometry.wkbPolygon
      [⟨0, 0⟩, ⟨9, 0⟩, ⟨9, 9⟩, ⟨0, 9⟩] [[⟨1, 1⟩, ⟨2, 1⟩, ⟨2, 2⟩]]) ∧
    ∃ outer inner : ShapeContainer ℚ,
      holed_importer.get_points unit_engine [] = [] ++ [outer, inner] ∧
      outer.type = ShapeType.ShapePolygon ∧
      outer.points = [(⟨0, 0⟩ : Point ℚ), ⟨9, 0⟩, ⟨9, 9⟩, ⟨0, 9⟩].reverse ∧
      inner.type = ShapeType.ShapeLinearRing ∧
      inner.points = [(⟨1, 1⟩ : Point ℚ), ⟨2, 1⟩, ⟨2, 2⟩].reverse :=
  ⟨rfl, rfl, get_points_polygon_one_interior_ring unit_engine holed_importer _ _ [] rfl rfl⟩

end DecompositionTheorems

section TransformTheorems

variable {K : Type} [LinearOrderedField K]

/-- The first loop of `transform_points`, interrupt flag clear: every point is replaced by
its projected coordinates and the failed indices are recorded in increasing order. -/
lemma transform_points_convert_clear {K : Type} (ct : CoordinateTransformation K)
    (todo : List (Point K)) :
    ∀ (done : List (Point K)) (i : Nat) (for_removal : List Nat),
      transform_points_convert ct false done i todo for_removal =
        (done ++ todo.map (projected ct), for_removal ++ failed_indices ct i todo) := by
  induction todo with
  | nil => intro done i fr; simp [transform_points_convert, failed_indices]
  | cons q rest ih =>
    intro done i fr
    simp only [transform_points_convert, Bool.false_eq_true, if_false]
    rw [ih]
    by_cases h : (ct q.x q.y).1 = true
    · simp [failed_indices, transformable, projected, h]
    · simp [failed_indices, transformable, projected, h]

lemma transform_points_erase_append {K : Type} (a b : List Nat) (points : List (Point K)) :
    transform_points_erase false (a ++ b) points =
      transform_points_erase false b (transform_points_erase false a points) := by
  induction a generalizing points with
  | nil => simp [transform_points_erase]
  | cons x a ih => simp [transform_points_erase, ih]

/-- Erasing the failed indices, last one first, leaves the points whose transformation
succeeded, in their order. -/
lemma transform_points_erase_failed {K : Type} (ct : CoordinateTransformation K)
    (todo : List (Point K)) :
    ∀ (pre : List (Point K)),
      transform_points_erase false (failed_indices ct pre.length todo).reverse
          (pre ++ todo.map (projected ct)) =
        pre ++ (todo.filter (transformable ct)).map (projected ct) := by
  induction todo with
  | nil => intro pre; simp [failed_indices, transform_points_erase]
  | cons q rest ih =>
    intro pre
    have ih' := ih (pre ++ [projected ct q])
    simp only [List.length_append, List.length_singleton, List.append_assoc,
      List.singleton_append] at ih'
    simp only [failed_indices, List.reverse_append, List.map_cons,
      transform_points_erase_append, ih']
    by_cases h : transformable ct q = true
    · simp [h, transform_points_erase]
    · simp [h, transform_points_erase, List.eraseIdx_append_of_length_le]

/-- The last loop of `transform_points`, interrupt flag clear: every point is replaced by
its pixel. -/
lemma transform_points_to_pixel_clear [FloorRing K] (cv : Converter K)
    (hclear : cv._interrupt = false) (todo : List (Point K)) :
    ∀ done : List (Point K),
      transform_points_to_pixel cv done todo = done ++ todo.map cv.pixel := by
  induction todo with
  | nil => intro done; simp [transform_points_to_pixel]
  | cons q rest ih =>
    intro done
    simp only [transform_points_to_pixel, hclear, Bool.false_eq_true, if_false]
    rw [ih]
    simp [Converter.pixel]

/-- The points of a container after the body of the outer loop, interrupt flag clear. -/
lemma transform_points_container_points [FloorRing K] (cv : Converter K)
    (ct : CoordinateTransformation K) (hclear : cv._interrupt = false) (sc : ShapeContainer K) :
    (transform_points_container cv ct sc).points =
      (sc.points.filter (transformable ct)).map (fun q => cv.pixel (projected ct q)) := by
  simp only [transform_points_container, hclear, transform_points_convert_clear,
    List.nil_append]
  have h := transform_points_erase_failed ct sc.points []
  simp only [List.length_nil, List.nil_append] at h
  rw [h, transform_points_to_pixel_clear cv hclear]
  simp

/-- The method `transform_points`, interrupt flag clear and transformation not null, runs
the body of its loop on every container. -/
lemma transform_points_clear [FloorRing K] (cv : Converter K) (ct : CoordinateTransformation K)
    (hclear : cv._interrupt = false) (hct : cv._geo_to_proj = some ct)
    (shapes : List (ShapeContainer K)) :
    cv.transform_points shapes = some (shapes.map (transform_points_container cv ct)) := by
  induction shapes with
  | nil => simp [Converter.transform_points]
  | cons sc rest ih =>
    simp only [Converter.transform_points, hclear, Bool.false_eq_true, if_false, hct, ih,
      List.map_cons]

/-- C15: with the interrupt flag clear, after `transform_points` each container holds the
input points whose geodetic-to-projected transformation succeeded, in their order, each
replaced by the pixel that `from_projected` gives for its projected coordinates; the points
whose transformation failed are gone and no other is.  A converter has a transformation
that is not null. -/
theorem transform_points_keeps_transformable [FloorRing K] (cv : Converter K)
    (ct : CoordinateTransformation K) (shapes_container : List (ShapeContainer K))
    (hclear : cv._interrupt = false) (hct : cv._geo_to_proj = some ct) :
    ∃ out : List (ShapeContainer K),
      cv.transform_points shapes_container = some out ∧
      out.length = shapes_container.length ∧
      out.map (fun sc => sc.points) =
        shapes_container.map (fun sc =>
          (sc.points.filter (fun q => (ct q.x q.y).1)).map (fun q =>
            (⟨((cv.from_projected (ct q.x q.y).2.1 (ct q.x q.y).2.2).1 : K),
              ((cv.from_projected (ct q.x q.y).2.1 (ct q.x q.y).2.2).2 : K)⟩ : Point K))) := by
  refine ⟨_, transform_points_clear cv ct hclear hct shapes_container, by simp, ?_⟩
  rw [List.map_map]
  apply List.map_congr_left
  intro sc _
  simp only [Function.comp, transform_points_container_points cv ct hclear sc]
  rfl

/-- C15, at the polar triangle: the vertex at the pole goes, the two others stay. -/
theorem transform_points_keeps_transformable_witness :
    polar_converter._interrupt = false ∧ polar_converter._geo_to_proj = some polar_transform ∧
    ∃ out : List (ShapeContainer ℚ),
      polar_converter.transform_points [polar_cap] = some out ∧
      out.length = [polar_cap].length ∧
      out.map (fun sc => sc.points) =
        [polar_cap].map (fun sc =>
          (sc.points.filter (fun q => (polar_transform q.x q.y).1)).map (fun q =>
            (⟨((polar_converter.from_projected (polar_transform q.x q.y).2.1
                (polar_transform q.x q.y).2.2).1 : ℚ),
              ((polar_converter.from_projected (polar_transform q.x q.y).2.1
                (polar_transform q.x q.y).2.2).2 : ℚ)⟩ : Point ℚ))) :=
  ⟨rfl, rfl, transform_points_keeps_transformable polar_converter polar_transform [polar_cap]
    rfl rfl⟩

/-- C16, the code at a failing input: for the polar triangle the `bottom_right` corner
`(10, 80)` transforms and the `top_left` corner `(-10, 90)` fails; after `transform_points`
the flag `converted` is still false, `top_left` is as before, and `bottom_right` holds the
projected `(1000, 8000)`: the box is not what it was before the call. -/
theorem transform_points_box_half_converted :
    polar_transform polar_cap.bounding_box.bottom_right.x polar_cap.bounding_box.bottom_right.y
      = (true, 1000, 8000) ∧
    (polar_transform polar_cap.bounding_box.top_left.x
      polar_cap.bounding_box.top_left.y).1 = false ∧
    ∃ out : ShapeContainer ℚ,
      polar_converter.transform_points [polar_cap] = some [out] ∧
      out.bounding_box.converted = false ∧
      out.bounding_box.top_left = polar_cap.bounding_box.top_left ∧
      out.bounding_box.bottom_right = ⟨1000, 8000⟩ ∧
      out.bounding_box.bottom_right ≠ polar_cap.bounding_box.bottom_right := by
  have hbr : polar_transform 10 80 = (true, 1000, 8000) := by
    norm_num [polar_transform]
  have htl : polar_transform (-10) 90 = (false, -10, 90) := by
    norm_num [polar_transform]
  have hbox : transform_points_box polar_converter polar_transform polar_cap.bounding_box =
      { top_left := ⟨-10, 90⟩, bottom_right := ⟨1000, 8000⟩, converted := false } := by
    simp only [transform_points_box, polar_cap, hbr, htl, if_true, Bool.false_eq_true,
      if_false]
  refine ⟨hbr, by rw [show polar_cap.bounding_box.top_left = ⟨-10, 90⟩ from rfl, htl],
    transform_points_container polar_converter polar_transform polar_cap,
    transform_points_clear polar_converter polar_transform rfl rfl [polar_cap], ?_, ?_, ?_, ?_⟩
  · show (transform_points_box polar_converter polar_transform
      polar_cap.bounding_box).converted = false
    rw [hbox]
  · show (transform_points_box polar_converter polar_transform
      polar_cap.bounding_box).top_left = _
    rw [hbox]
    rfl
  · show (transform_points_box polar_converter polar_transform
      polar_cap.bounding_box).bottom_right = _
    rw [hbox]
  · show (transform_points_box polar_converter polar_transform
      polar_cap.bounding_box).bottom_right ≠ _
    rw [hbox]
    simp [polar_cap]

end TransformTheorems

section RenderTheorems

variable {K : Type} [LinearOrderedField K]

/-- The loop over the interior rings, interrupt flag clear, appends one container per ring,
with the vertices of the ring in reverse index order. -/
lemma extract_interior_rings_clear (eng : GeometryEngine K (OGRGeometry K))
    (imp : Importer (OGRGeometry K)) (hclear : imp._interrupt = false)
    (interior : List (List (Point K))) :
    ∀ shapes : List (ShapeContainer K),
      (imp.extract_interior_rings eng interior shapes).map (fun sc => sc.points) =
        shapes.map (fun sc => sc.points) ++ interior.map List.reverse := by
  induction interior with
  | nil => intro shapes; simp [Importer.extract_interior_rings]
  | cons ring rest ih =>
    intro shapes
    simp only [Importer.extract_interior_rings, hclear, Bool.false_eq_true, if_false]
    rw [ih]
    simp [Importer.extract_linear_ring, hclear, push_points_backwards_all]

mutual
/-- The method `extract_points`, interrupt flag clear, appends one container per simple shape
of the geometry, with the vertices of the shape in reverse index order. -/
theorem extract_points_clear (eng : GeometryEngine K (OGRGeometry K))
    (imp : Importer (OGRGeometry K)) (hclear : imp._interrupt = false) :
    ∀ (g : OGRGeometry K) (shapes : List (ShapeContainer K)),
      (imp.extract_points eng g shapes).map (fun sc => sc.points) =
        shapes.map (fun sc => sc.points) ++ g.simple_shapes.map List.reverse
  | .wkbPoint x y, shapes => by
    simp [Importer.extract_points, OGRGeometry.simple_shapes]
  | .wkbLineString line, shapes => by
    simp [Importer.extract_points, OGRGeometry.simple_shapes, Importer.extract_line_string,
      hclear, push_points_backwards_all]
  | .wkbLinearRing ring, shapes => by
    simp [Importer.extract_points, OGRGeometry.simple_shapes, Importer.extract_linear_ring,
      hclear, push_points_backwards_all]
  | .wkbPolygon exterior interior, shapes => by
    simp [Importer.extract_points, OGRGeometry.simple_shapes,
      extract_interior_rings_clear eng imp hclear, push_points_backwards_all]
  | .wkbGeometryCollection members, shapes => by
    simp only [Importer.extract_points, OGRGeometry.simple_shapes]
    exact extract_members_clear eng imp hclear members shapes
  | .wkbUnknown, shapes => by
    simp [Importer.extract_points, OGRGeometry.simple_shapes]
/-- The loop over the members of a collection, interrupt flag clear, appends the containers
of every member. -/
theorem extract_members_clear (eng : GeometryEngine K (OGRGeometry K))
    (imp : Importer (OGRGeometry K)) (hclear : imp._interrupt = false) :
    ∀ (members : List (OGRGeometry K)) (shapes : List (ShapeContainer K)),
      (Importer.extract_members eng imp members shapes).map (fun sc => sc.points) =
        shapes.map (fun sc => sc.points) ++
          (OGRGeometry.simple_shapes_of_members members).map List.reverse
  | [], shapes => by
    simp [Importer.extract_members, OGRGeometry.simple_shapes_of_members]
  | g :: rest, shapes => by
    simp only [Importer.extract_members, hclear, Bool.false_eq_true, if_false,
      OGRGeometry.simple_shapes_of_members]
    rw [extract_members_clear eng imp hclear rest, extract_points_clear eng imp hclear g]
    simp
end

/-- The method `get_points`, interrupt flag clear, on an empty sequence: one container per
simple shape of the geometry, with the vertices of the shape in reverse index order. -/
lemma get_points_clear (eng : GeometryEngine K (OGRGeometry K))
    (imp : Importer (OGRGeometry K)) (hclear : imp._interrupt = false) :
    (imp.get_points eng []).map (fun sc => sc.points) =
      imp.simple_shapes.map List.reverse := by
  unfold Importer.get_points Importer.simple_shapes
  cases imp._geometry with
  | none => simp
  | some g => simpa using extract_points_clear eng imp hclear g []

/-- C17, as stated, fails: a feature whose importer has its interrupt flag set and holds
a line string of three vertices, all transformable, is rendered to one container without
points; that is not the value before the render (no container) and not the complete result
(one container with three points). -/
theorem render_interrupted_stores_truncated :
    interrupted_line_feature._geometry._interrupt = true ∧
    interrupted_line_feature._shapes = [] ∧
    shifted_converter._geo_to_proj.isSome = true ∧
    interrupted_line_feature._geometry.simple_shapes.map
      (fun vs => (vs.filter (transformable (fun x y => (true, x, y)))).length) = [3] ∧
    ∃ rendered : Feature ℚ (OGRGeometry ℚ),
      interrupted_line_feature.render unit_engine shifted_converter = some rendered ∧
      rendered._shapes ≠ interrupted_line_feature._shapes ∧
      rendered._shapes.map (fun sc => sc.points.length) = [0] := by
  have hct : shifted_converter._geo_to_proj = some (fun x y => (true, x, y)) := rfl
  have hget : interrupted_line_feature._geometry.get_points unit_engine [] =
      [{ type := ShapeType.ShapeLineString, points := [],
         bounding_box := { top_left := ⟨0, 1⟩, bottom_right := ⟨1, 0⟩, converted := false } }] := by
    simp [interrupted_line_feature, line_importer, Importer.interrupt, Importer.get_points,
      Importer.extract_points, Importer.extract_line_string, push_points_backwards,
      unit_engine, Envelope.new]
  have hrender : interrupted_line_feature.render unit_engine shifted_converter =
      some { interrupted_line_feature with
        _shapes := [transform_points_container shifted_converter (fun x y => (true, x, y))
          { type := ShapeType.ShapeLineString, points := [],
            bounding_box :=
              { top_left := ⟨0, 1⟩, bottom_right := ⟨1, 0⟩, converted := false } }] } := by
    simp only [Feature.render, hget, transform_points_clear shifted_converter _ rfl hct,
      List.map_cons, List.map_nil]
  refine ⟨rfl, rfl, rfl, ?_, _, hrender, ?_, ?_⟩
  · simp [interrupted_line_feature, line_importer, Importer.interrupt, Importer.simple_shapes,
      OGRGeometry.simple_shapes, transformable]
  · simp [interrupted_line_feature]
  · simp only [List.map_cons, List.map_nil,
      transform_points_container_points shifted_converter _ rfl]
    rfl

/-- C17, amended: when the interrupt flags of the importer of the feature and of the
converter are clear, whatever the flag of the layer is, `render` stores the complete result:
one container per simple shape of the geometry, each with all the transformable points of
the shape, as pixels, in reverse index order.  A converter has a transformation that is not
null. -/
theorem render_complete_when_flags_clear [FloorRing K] (eng : GeometryEngine K (OGRGeometry K))
    (f : Feature K (OGRGeometry K)) (converter : Converter K)
    (ct : CoordinateTransformation K) (himp : f._geometry._interrupt = false)
    (hcv : converter._interrupt = false) (hct : converter._geo_to_proj = some ct) :
    ∃ rendered : Feature K (OGRGeometry K),
      f.render eng converter = some rendered ∧
      rendered._shapes.length = f._geometry.simple_shapes.length ∧
      rendered._shapes.map (fun sc => sc.points) =
        f._geometry.simple_shapes.map (fun vs =>
          (vs.reverse.filter (transformable ct)).map
            (fun q => converter.pixel (projected ct q))) := by
  have hpts := get_points_clear eng f._geometry himp
  have hlen : (f._geometry.get_points eng []).length = f._geometry.simple_shapes.length := by
    have := congrArg List.length hpts
    simpa using this
  refine ⟨{ f with
            _shapes := List.map (transform_points_container converter ct)
                         (f._geometry.get_points eng []) },
    ?_, by simpa using hlen, ?_⟩
  · simp only [Feature.render, transform_points_clear converter ct hcv hct]
  · simp only [List.map_map]
    have h : ((fun sc : ShapeContainer K => sc.points) ∘
        transform_points_container converter ct) =
        (fun pts : List (Point K) => (pts.filter (transformable ct)).map
          (fun q => converter.pixel (projected ct q))) ∘ (fun sc => sc.points) := by
      funext sc
      simp only [Function.comp, transform_points_container_points converter ct hcv sc]
    rw [h, ← List.map_map, hpts, List.map_map]
    rfl

/-- C17 amended, at a square with a triangular hole. -/
theorem render_complete_when_flags_clear_witness :
    holed_feature._geometry._interrupt = false ∧ shifted_converter._interrupt = false ∧
    shifted_converter._geo_to_proj = some (fun x y => (true, x, y)) ∧
    ∃ rendered : Feature ℚ (OGRGeometry ℚ),
      holed_feature.render unit_engine shifted_converter = some rendered ∧
      rendered._shapes.length = holed_feature._geometry.simple_shapes.length ∧
      rendered._shapes.map (fun sc => sc.points) =
        holed_feature._geometry.simple_shapes.map (fun vs =>
          (vs.reverse.filter (transformable (fun x y => (true, x, y)))).map
            (fun q => shifted_converter.pixel (projected (fun x y => (true, x, y)) q))) :=
  ⟨rfl, rfl, rfl,
    render_complete_when_flags_clear unit_engine holed_feature shifted_converter
      (fun x y => (true, x, y)) rfl rfl rfl⟩

end RenderTheorems

section PolygonLoopTheorems

variable {K : Type} [LinearOrderedField K]

/-- When the two vertices are on different sides of the level of `p`, their `y` differ. -/
lemma straddle_divisor_ne_zero (pi pj p : Point K)
    (h : (decide (pi.y > p.y) != decide (pj.y > p.y)) = true) : pj.y - pi.y ≠ 0 := by
  intro h0
  have e : pj.y = pi.y := by linarith
  rw [e] at h
  simp at h

/-- The watched condition never meets a zero divisor and gives the value of the
condition. -/
lemma polygon_edge_crossed_checked_eq (pi pj p : Point K) :
    polygon_edge_crossed_checked pi pj p = some (polygon_edge_crossed pi pj p) := by
  unfold polygon_edge_crossed_checked polygon_edge_crossed
  by_cases h : (decide (pi.y > p.y) != decide (pj.y > p.y)) = true
  · rw [if_pos h, if_neg (straddle_divisor_ne_zero pi pj p h), h]
    simp
  · rw [if_neg h]
    simp only [Bool.not_eq_true] at h
    rw [h]
    simp

/-- The watched loop of `within_polygon` never leaves the bounds of the vertices and follows
the loop. -/
lemma within_polygon_loop_checked (points : List (Point K)) (p : Point K) (k : Nat)
    (hk : k ≤ points.length) :
    (List.range k).foldl (within_polygon_step_checked points p)
        (some (false, points.length - 1)) =
      some ((List.range k).foldl (within_polygon_step points p) (false, points.length - 1)) := by
  induction k with
  | zero => simp
  | succ k ih =>
    have hlt : k < points.length := by omega
    have hj : cyclicPred points.length k < points.length := cyclicPred_lt hlt
    rw [List.range_succ, List.foldl_append, List.foldl_append, ih (by omega),
      within_polygon_loop_eq]
    simp only [List.foldl_cons, List.foldl_nil, within_polygon_step_checked,
      within_polygon_step, List.getElem?_eq_getElem hlt, List.getElem?_eq_getElem hj,
      polygon_edge_crossed_checked_eq, List.getD_eq_getElem _ _ hlt,
      List.getD_eq_getElem _ _ hj]

/-- C21: in the loop of `within_polygon` the quotient is never evaluated with a zero
divisor and every `points[i]`, `points[j]` is within bounds: the watched method always
returns, with the value of the method; the guard of the `&&` makes the divisor
`points[j].y - points[i].y` non-zero. -/
theorem within_polygon_no_zero_divisor (sc : ShapeContainer K) (p : Point K) :
    within_polygon_checked sc p = some (within_polygon sc p) ∧
    (∀ pi pj : Point K,
      polygon_edge_crossed_checked pi pj p = some (polygon_edge_crossed pi pj p)) ∧
    (∀ pi pj : Point K,
      (decide (pi.y > p.y) != decide (pj.y > p.y)) = false ∨ pj.y - pi.y ≠ 0) := by
  refine ⟨?_, fun pi pj => polygon_edge_crossed_checked_eq pi pj p, ?_⟩
  · unfold within_polygon_checked within_polygon
    split_ifs
    · rfl
    · rfl
    · simp only [within_polygon_loop_checked sc.points p sc.points.length (le_refl _)]
  · intro pi pj
    by_cases h : (decide (pi.y > p.y) != decide (pj.y > p.y)) = true
    · exact Or.inr (straddle_divisor_ne_zero pi pj p h)
    · exact Or.inl (by simpa using h)

lemma bne_swap (x y : Bool) : (x != y) = (y != x) := by
  cases x <;> cases y <;> rfl

/-- The condition of the loop does not depend on which of the two vertices comes first:
the quotient is the abscissa of the line through them at the level of `p`. -/
lemma polygon_edge_crossed_symm (a b p : Point K) :
    polygon_edge_crossed a b p = polygon_edge_crossed b a p := by
  unfold polygon_edge_crossed
  by_cases h : (decide (a.y > p.y) != decide (b.y > p.y)) = true
  · have h' : (decide (b.y > p.y) != decide (a.y > p.y)) = true := by
      rw [bne_swap]
      exact h
    have hba : b.y - a.y ≠ 0 := straddle_divisor_ne_zero a b p h
    have hab : a.y - b.y ≠ 0 := straddle_divisor_ne_zero b a p h'
    have e : (b.x - a.x) * (p.y - a.y) / (b.y - a.y) + a.x =
        (a.x - b.x) * (p.y - b.y) / (a.y - b.y) + b.x := by
      field_simp
      ring
    rw [h, h', e]
  · simp only [Bool.not_eq_true] at h
    have h' : (decide (b.y > p.y) != decide (a.y > p.y)) = false := by
      rw [bne_swap]
      exact h
    rw [h, h']
    simp

lemma toggled_xor_succ (f : Nat → Bool) (k : Nat) :
    toggled f (k + 1) = xor (toggled f k) (f k) := by
  rw [toggled_succ]
  cases f k <;> cases toggled f k <;> rfl

/-- The flag after `k + 1` steps, with the first step taken apart. -/
lemma toggled_shift (f : Nat → Bool) (k : Nat) :
    toggled f (k + 1) = xor (f 0) (toggled (fun i => f (i + 1)) k) := by
  induction k with
  | zero =>
    rw [toggled_xor_succ]
    simp [toggled]
  | succ k ih =>
    rw [toggled_xor_succ, ih, toggled_xor_succ (fun i => f (i + 1))]
    cases f 0 <;> cases toggled (fun i => f (i + 1)) k <;> cases f (k + 1) <;> rfl

/-- The flag does not depend on the order in which the steps are taken. -/
lemma toggled_reverse (m : Nat) :
    ∀ h : Nat → Bool, toggled (fun i => h (m - 1 - i)) m = toggled h m := by
  induction m with
  | zero => intro h; rfl
  | succ m ih =>
    intro h
    rw [toggled_shift, toggled_xor_succ h]
    have e : toggled (fun i => h (m + 1 - 1 - (i + 1))) m =
        toggled (fun i => h (m - 1 - i)) m :=
      toggled_congr _ _ m (fun i hi => by
        have : m + 1 - 1 - (i + 1) = m - 1 - i := by omega
        simp only [this])
    rw [e, ih h]
    have e0 : m + 1 - 1 - 0 = m := by omega
    simp only [e0]
    cases h m <;> cases toggled h m <;> rfl

/-- The loop of `within_polygon` ends with the same flag on the reversed vertex list. -/
lemma toggled_crossed_reverse (points : List (Point K)) (p : Point K) :
    toggled (fun i => polygon_edge_crossed (points.reverse.getD i ⟨0, 0⟩)
        (points.reverse.getD (cyclicPred points.length i) ⟨0, 0⟩) p) points.length =
      toggled (fun i => polygon_edge_crossed (points.getD i ⟨0, 0⟩)
        (points.getD (cyclicPred points.length i) ⟨0, 0⟩) p) points.length := by
  cases hn : points.length with
  | zero => rfl
  | succ m =>
    have hrev : ∀ i, i < m + 1 →
        points.reverse.getD i ⟨0, 0⟩ = points.getD (m - i) ⟨0, 0⟩ := by
      intro i hi
      have h1 : i < points.reverse.length := by rw [List.length_reverse, hn]; exact hi
      have h2 : m - i < points.length := by rw [hn]; omega
      rw [List.getD_eq_getElem _ _ h1, List.getD_eq_getElem _ _ h2, List.getElem_reverse]
      congr 1
      rw [hn]
      omega
    rw [toggled_shift, toggled_shift (fun i => polygon_edge_crossed (points.getD i ⟨0, 0⟩)
      (points.getD (cyclicPred (m + 1) i) ⟨0, 0⟩) p)]
    have hfirst : polygon_edge_crossed (points.reverse.getD 0 ⟨0, 0⟩)
        (points.reverse.getD (cyclicPred (m + 1) 0) ⟨0, 0⟩) p =
        polygon_edge_crossed (points.getD 0 ⟨0, 0⟩)
          (points.getD (cyclicPred (m + 1) 0) ⟨0, 0⟩) p := by
      have hc : cyclicPred (m + 1) 0 = m := by simp [cyclicPred]
      rw [hc, hrev 0 (by omega), hrev m (by omega), polygon_edge_crossed_symm]
      simp
    have hrest : toggled (fun i => polygon_edge_crossed (points.reverse.getD (i + 1) ⟨0, 0⟩)
        (points.reverse.getD (cyclicPred (m + 1) (i + 1)) ⟨0, 0⟩) p) m =
        toggled (fun i => polygon_edge_crossed (points.getD (i + 1) ⟨0, 0⟩)
          (points.getD (cyclicPred (m + 1) (i + 1)) ⟨0, 0⟩) p) m := by
      rw [← toggled_reverse m (fun i => polygon_edge_crossed (points.getD (i + 1) ⟨0, 0⟩)
        (points.getD (cyclicPred (m + 1) (i + 1)) ⟨0, 0⟩) p)]
      apply toggled_congr
      intro i hi
      have hc1 : cyclicPred (m + 1) (i + 1) = i := by simp [cyclicPred]
      have hc2 : cyclicPred (m + 1) (m - 1 - i + 1) = m - 1 - i := by simp [cyclicPred]
      have e1 : m - (i + 1) = m - 1 - i := by omega
      have e2 : m - i = m - 1 - i + 1 := by omega
      simp only [hc1, hc2]
      rw [hrev (i + 1) (by omega), hrev i (by omega), polygon_edge_crossed_symm, e1, e2]
    rw [hfirst, hrest]

/-- The method `within_polygon` gives the same answer on the reversed vertex list. -/
lemma within_polygon_reverse (sc : ShapeContainer K) (p : Point K) :
    within_polygon { sc with points := sc.points.reverse } p = within_polygon sc p := by
  have hemp : sc.points.reverse.isEmpty = sc.points.isEmpty := by
    cases hpts : sc.points with
    | nil => rfl
    | cons q rest => simp
  unfold within_polygon
  simp only [hemp, List.length_reverse]
  split_ifs
  · rfl
  · rfl
  · rw [within_polygon_loop_eq, within_polygon_loop_eq]
    exact toggled_crossed_reverse sc.points p

/-- C22: for a Polygon container `within (p)` is the same on the container with the same
bounding box and the points in reverse order, in exact arithmetic: the direction in which
the ring is listed does not change hit-testing. -/
theorem within_polygon_reversed_points (sqrt : K → K) (sc : ShapeContainer K) (p : Point K)
    (htype : sc.type = ShapeType.ShapePolygon) :
    within sqrt { sc with points := sc.points.reverse } p = within sqrt sc p := by
  simp only [within, htype]
  exact within_polygon_reverse sc p

/-- C22, at the square and the point `(5,5)`. -/
theorem within_polygon_reversed_points_witness :
    square_polygon.type = ShapeType.ShapePolygon ∧
    within Rat.sqrt { square_polygon with points := square_polygon.points.reverse } ⟨5, 5⟩ =
      within Rat.sqrt square_polygon ⟨5, 5⟩ :=
  ⟨rfl, within_polygon_reversed_points Rat.sqrt square_polygon ⟨5, 5⟩ rfl⟩

/-- C24: a Polygon container whose bounding box is in the geodetic convention of the
importer, `top_left.y > bottom_right.y`, contains no point, whatever its vertices are: no
`p.y` passes both `top_left.y ≤ p.y` and `bottom_right.y ≥ p.y`. -/
theorem within_polygon_inverted_box (sqrt : K → K) (sc : ShapeContainer K) (p : Point K)
    (htype : sc.type = ShapeType.ShapePolygon)
    (hbox : sc.bounding_box.top_left.y > sc.bounding_box.bottom_right.y) :
    within sqrt sc p = false := by
  have hfail : (decide (sc.bounding_box.top_left.x ≤ p.x) &&
      decide (sc.bounding_box.top_left.y ≤ p.y) &&
      decide (sc.bounding_box.bottom_right.x ≥ p.x) &&
      decide (sc.bounding_box.bottom_right.y ≥ p.y)) = false := by
    by_cases h1 : sc.bounding_box.top_left.y ≤ p.y
    · have h2 : ¬ sc.bounding_box.bottom_right.y ≥ p.y := by
        intro h
        exact absurd (lt_of_le_of_lt (le_trans h1 h) hbox) (lt_irrefl _)
      simp [h2]
    · simp [h1]
  simp only [within, htype, within_polygon, hfail]
  simp

/-- C24, at the polar triangle, whose box has `top_left.y = 90` and `bottom_right.y = 80`,
and the point `(0, 85)` between its vertices. -/
theorem within_polygon_inverted_box_witness :
    polar_cap.type = ShapeType.ShapePolygon ∧
    polar_cap.bounding_box.top_left.y > polar_cap.bounding_box.bottom_right.y ∧
    within Rat.sqrt polar_cap ⟨0, 85⟩ = false :=
  ⟨rfl, by norm_num [polar_cap],
    within_polygon_inverted_box Rat.sqrt polar_cap ⟨0, 85⟩ rfl (by norm_num [polar_cap])⟩

end PolygonLoopTheorems

section RoundTripTheorems

variable {K : Type} [LinearOrderedField K] [FloorRing K]

/-- C23: with `c2 = c4 = 0`, non-zero `c1`, `c5` and an exact inverse, passing the outputs
of `to_projected (x, y)` to `from_projected` in the order of `to_latlon` and `from_latlon`,
`lon` first, returns exactly `(x, y)`, in exact arithmetic. -/
theorem round_trip_swapped_exact (cv : Converter K)
    (hc2 : cv._adf_projection 2 = 0) (hc4 : cv._adf_projection 4 = 0)
    (hc1 : cv._adf_projection 1 ≠ 0) (hc5 : cv._adf_projection 5 ≠ 0)
    (hinv : IsExactInverse cv._adf_projection cv._inv_projection) (x y : Int) :
    cv.from_projected (cv.to_projected x y).2 (cv.to_projected x y).1 = (x, y) := by
  obtain ⟨hx, hy⟩ := exact_inverse_axes cv._adf_projection cv._inv_projection hc2 hc4 hc1 hc5
    hinv (x : K) (y : K)
  have e1 : cv._inv_projection 0 + cv._inv_projection 1 * (cv.to_projected x y).2 = (x : K) := by
    simp only [Converter.to_projected, hc2, mul_zero, add_zero]
    exact hx
  have e2 : cv._inv_projection 3 + cv._inv_projection 5 * (cv.to_projected x y).1 = (y : K) := by
    simp only [Converter.to_projected, hc4, mul_zero, add_zero]
    exact hy
  simp only [Converter.from_projected, e1, e2, double_to_int_intCast]

/-- C23, at `shifted_converter` and the pixel `(2, 3)`. -/
theorem round_trip_swapped_exact_witness :
    shifted_converter._adf_projection 2 = 0 ∧ shifted_converter._adf_projection 4 = 0 ∧
    shifted_converter._adf_projection 1 ≠ 0 ∧ shifted_converter._adf_projection 5 ≠ 0 ∧
    IsExactInverse shifted_converter._adf_projection shifted_converter._inv_projection ∧
    shifted_converter.from_projected (shifted_converter.to_projected 2 3).2
      (shifted_converter.to_projected 2 3).1 = (2, 3) :=
  ⟨shifted_converter_invertible.1, shifted_converter_invertible.2.1,
    shifted_converter_invertible.2.2.1, shifted_converter_invertible.2.2.2.1,
    shifted_converter_invertible.2.2.2.2,
    round_trip_swapped_exact shifted_converter shifted_converter_invertible.1
      shifted_converter_invertible.2.1 shifted_converter_invertible.2.2.1
      shifted_converter_invertible.2.2.2.1 shifted_converter_invertible.2.2.2.2 2 3⟩

end RoundTripTheorems

end spatial
